import Mathlib

/-!
Verification development for the documentation-module extractor
(`pulse` package: crawler, parser, inference, summarizer, pipeline).

Python strings are modelled as `List Char` (`Str`), Python lists as
`List`, Python dicts as insertion-ordered association lists or, where a
dict is only read through `.get`, as functions into `Option`.  Python
floats appearing in the summarizer scores are exact multiples of 1/2 and
are modelled as integers scaled by 2; the single fractional comparison
`count > len * 0.3` is modelled by the exact integer cross-multiplication
`10 * count > 3 * len`, which agrees with the double-precision evaluation
for all sentence lengths arising here (see the comment at `scoreSentence`).

Character classes (`\s`, `\d`, upper/lower case) are modelled over ASCII;
the repository's behaviour on non-ASCII case folding is outside the scope
of the claims.
-/

namespace Pulse

/-- Python `str`, modelled as a list of characters. -/
abbrev Str := List Char

/-- Python regex `\s` / `str.strip()` whitespace, ASCII range. -/
def isPySpace (c : Char) : Bool :=
  c = ' ' || c = '\t' || c = '\n' || c = '\r' || c = '\x0b' || c = '\x0c'

/-- Python regex `\d`, ASCII range. -/
def isPyDigit (c : Char) : Bool :=
  '0' ≤ c && c ≤ '9'

/-- `str.lstrip()`. -/
def pyLStrip (s : Str) : Str := s.dropWhile isPySpace

/-- `str.rstrip()`. -/
def pyRStrip (s : Str) : Str := (s.reverse.dropWhile isPySpace).reverse

/-- `str.strip()`. -/
def pyStrip (s : Str) : Str := pyRStrip (pyLStrip s)

/-- `str.rstrip('/')` — drop all trailing slashes. -/
def rstripSlash (s : Str) : Str := (s.reverse.dropWhile (fun c => c = '/')).reverse

/-- `str.lower()` (ASCII). -/
def pyLower (s : Str) : Str := s.map Char.toLower

/-- Worker for `collapseWs`; each step consumes at least one character,
so the fuel (initialised to the string length) is never exhausted and
the fuel-0 branch is unreachable. -/
def collapseWsGo : Nat → Str → Str
  | 0, s => s
  | _ + 1, [] => []
  | fuel + 1, c :: rest =>
    if isPySpace c then ' ' :: collapseWsGo fuel (rest.dropWhile isPySpace)
    else c :: collapseWsGo fuel rest

/-- `re.sub(r'\s+', ' ', s)`: collapse every whitespace run to one space. -/
def collapseWs (s : Str) : Str := collapseWsGo s.length s

/-- Leftmost index at which `pat` occurs as a contiguous substring of `s`
(the regex engine's left-to-right scan); `none` if it does not occur. -/
def findSubstrIdx (pat : Str) : Str → Option Nat
  | [] => if pat = [] then some 0 else none
  | c :: rest =>
    if pat.isPrefixOf (c :: rest) then some 0
    else (findSubstrIdx pat rest).map (· + 1)

/-- Substring occurrence (Bool). -/
def containsSubstr (s pat : Str) : Bool := (findSubstrIdx pat s).isSome

/-- Case-insensitive (ASCII-lowercased) leftmost substring occurrence. -/
def findSubstrIdxCI (pat s : Str) : Option Nat :=
  findSubstrIdx (pyLower pat) (pyLower s)

/-- Case-insensitive substring occurrence (Bool). -/
def containsSubstrCI (s pat : Str) : Bool := (findSubstrIdxCI pat s).isSome

/-- `str.split(sep)` for a one-character separator: split at every
occurrence, keeping empty pieces (Python semantics). -/
def splitChar (sep : Char) : Str → List Str
  | [] => [[]]
  | c :: rest =>
    let r := splitChar sep rest
    if c = sep then [] :: r
    else match r with
      | [] => [[c]]
      | p :: ps => (c :: p) :: ps

/-- Worker for `pySplitWs`; each step consumes at least one character,
so the fuel (the string length) is never exhausted. -/
def pySplitWsGo : Nat → Str → List Str
  | 0, _ => []
  | _ + 1, [] => []
  | fuel + 1, c :: rest =>
    if isPySpace c then pySplitWsGo fuel (rest.dropWhile isPySpace)
    else
      ((c :: rest).takeWhile (fun d => !isPySpace d)) ::
        pySplitWsGo fuel ((c :: rest).dropWhile (fun d => !isPySpace d))

/-- `str.split()` with no argument: whitespace-run tokenisation, no empty
tokens. -/
def pySplitWs (s : Str) : List Str := pySplitWsGo s.length s

/-- `str.replace(c, '')` for a one-character pattern: remove every
occurrence. -/
def removeChar (m : Char) (s : Str) : Str := s.filter (fun c => c ≠ m)

/-- `str.replace(a, b)` for one-character pattern and replacement. -/
def replaceChar (a b : Char) (s : Str) : Str :=
  s.map (fun c => if c = a then b else c)

/-- `str.title()`: a cased character following a non-cased character is
uppercased, one following a cased character is lowercased (ASCII). -/
def pyTitle (s : Str) : Str :=
  (s.foldl (fun (st : Str × Bool) c =>
    if c.isAlpha then
      (((if st.2 then c.toLower else c.toUpper) :: st.1), true)
    else ((c :: st.1), false)) ([], false)).1.reverse

/-- Insertion-ordered association-list read (`dict.get`). -/
def assocGet (l : List (Str × Str)) (k : Str) : Option Str := l.lookup k

/-- `d[k] = v` on an insertion-ordered association list: overwrite in
place if the key exists, else append. -/
def assocSet {β : Type} [DecidableEq β] (l : List (Str × β)) (k : Str) (v : β) :
    List (Str × β) :=
  if (l.lookup k).isSome then
    l.map (fun p => if p.1 = k then (k, v) else p)
  else l ++ [(k, v)]

/-!
### URL handling (`urllib.parse`, as used by `crawler.py` and `inference.py`)

`urlparse` is modelled for the fields the repository reads: `scheme`,
`netloc`, `path`, `query` (and the dropped `fragment`).  Python's
`urlparse` additionally splits `params` off the last path segment at a
semicolon; the code only pipes `params` unchanged back into
`urlunparse`, and a params part never contains or ends with `/` (it
starts after the last slash), so folding it into `path` is
behaviour-preserving for every use in the repository and we keep it
inside `path`.
-/

/-- Result of `urllib.parse.urlparse` (params folded into `path`). -/
structure UrlParts where
  scheme : Str
  netloc : Str
  path : Str
  query : Str
  fragment : Str
deriving DecidableEq, Repr

/-- Valid scheme characters after the first: letters, digits, `+`, `-`, `.`. -/
def isSchemeTailChar (c : Char) : Bool :=
  c.isAlpha || ('0' ≤ c && c ≤ '9') || c = '+' || c = '-' || c = '.'

/-- A non-empty all-letters-then-scheme-chars prefix, as `urlsplit` checks
before accepting a scheme. -/
def validScheme (s : Str) : Bool :=
  match s with
  | [] => false
  | c :: rest => c.isAlpha && rest.all isSchemeTailChar

/-- Split `before, after` at the first occurrence of `sep`; `none` when
`sep` does not occur. -/
def splitFirst (sep : Char) : Str → Option (Str × Str)
  | [] => none
  | c :: rest =>
    if c = sep then some ([], rest)
    else (splitFirst sep rest).map (fun p => (c :: p.1, p.2))

/-- Characters ending the netloc part: `/`, `?`, `#`. -/
def isNetlocEnd (c : Char) : Bool := c = '/' || c = '?' || c = '#'

/-- The scheme step of `urlsplit`: the prefix before the first `:` when
it is a valid scheme (lowercased), and the remainder. -/
def splitScheme (r : Str) : Str × Str :=
  match splitFirst ':' r with
  | some (pre, post) => if validScheme pre then (pyLower pre, post) else ([], r)
  | none => ([], r)

/-- The netloc step of `urlsplit`: after a leading `//`, up to the first
`/`, `?` or `#`. -/
def splitNetloc (r : Str) : Str × Str :=
  if r.take 2 = ['/', '/'] then
    ((r.drop 2).takeWhile (fun c => !isNetlocEnd c),
     (r.drop 2).dropWhile (fun c => !isNetlocEnd c))
  else ([], r)

/-- The query step of `urlsplit`: split at the first `?`. -/
def splitQuery (r : Str) : Str × Str :=
  match splitFirst '?' r with
  | some p => p
  | none => (r, [])

/-- The fragment step of `urlsplit`: split at the first `#`. -/
def fragSplit (u : Str) : Str × Str :=
  match splitFirst '#' u with
  | some p => p
  | none => (u, [])

/-- `urllib.parse.urlparse` (see the note above on `params`).  Mirrors
`urlsplit`: fragment at the first `#` (a `#` can never sit inside the
scheme or netloc, so splitting it off first is equivalent), then the
scheme at the first `:` when the prefix is a valid scheme (lowercased),
then `//netloc` up to the first `/`, `?` or `#`, then the query at the
first `?`. -/
def urlparse (u : Str) : UrlParts :=
  let (rest, frag) := fragSplit u
  let (scheme, rest) := splitScheme rest
  let (netloc, rest) := splitNetloc rest
  let (path, query) := splitQuery rest
  ⟨scheme, netloc, path, query, frag⟩

/-- The netloc/path part of `urlunsplit`: `//netloc` plus the path made
absolute when a netloc (or a `//` path prefix) is present. -/
def urlunparseCore (netloc path : Str) : Str :=
  if netloc ≠ [] ∨ path.take 2 = ['/', '/'] then
    ['/', '/'] ++ netloc ++
      (if path ≠ [] ∧ path.head? ≠ some '/' then '/' :: path else path)
  else path

/-- `urllib.parse.urlunparse` (params folded into `path`), mirroring
`urlunsplit`. -/
def urlunparse (scheme netloc path query fragment : Str) : Str :=
  let url := urlunparseCore netloc path
  let url := if scheme ≠ [] then scheme ++ [':'] ++ url else url
  let url := if query ≠ [] then url ++ ['?'] ++ query else url
  if fragment ≠ [] then url ++ ['#'] ++ fragment else url

/-- `URLCrawler._normalize_url`: drop the fragment, collapse trailing
slashes of the path (empty path becomes `/`). -/
def normalizeUrl (u : Str) : Str :=
  let p := urlparse u
  let path := rstripSlash p.path
  let path := if path = [] then ['/'] else path
  urlunparse p.scheme p.netloc path p.query []

/-- `URLCrawler._get_domain`. -/
def getDomain (u : Str) : Str := (urlparse u).netloc

/-!
### `summarizer.py` — `DescriptionSummarizer`
-/

/-- Summarizer configuration (`__init__` defaults). -/
structure DescriptionSummarizer where
  maxSentences : Nat := 3
  minLength : Nat := 20
deriving DecidableEq, Repr

/-- The eight noise lead-ins of `_clean_content`, in source order.  Each
is used in the regex `lead-in + '.*'` with `re.IGNORECASE`. -/
def noiseLeadIns : List Str :=
  ["See also:".toList, "Related:".toList, "Note:".toList, "Warning:".toList,
   "Example:".toList, "For more information".toList, "Click here".toList,
   "Learn more".toList]

/-- One `re.sub(lit + '.*', '', s, flags=re.IGNORECASE)` application.  On
the newline-free text this runs on (whitespace was collapsed to single
spaces first), the greedy `.*` extends the leftmost match to the end of
the string, so the substitution keeps exactly the prefix before the
leftmost case-insensitive occurrence of the lead-in. -/
def noiseStep (s : Str) (lit : Str) : Str :=
  match findSubstrIdxCI lit s with
  | some i => s.take i
  | none => s

/-- Length of the match of `https?://\S+` at the start of `s`, if any:
the scheme literal plus the maximal non-empty run of non-whitespace. -/
def urlMatchLen (s : Str) : Option Nat :=
  if ("https://".toList).isPrefixOf s then
    let run := (s.drop 8).takeWhile (fun c => !isPySpace c)
    if run = [] then none else some (8 + run.length)
  else if ("http://".toList).isPrefixOf s then
    let run := (s.drop 7).takeWhile (fun c => !isPySpace c)
    if run = [] then none else some (7 + run.length)
  else none

/-- Worker for `stripUrls`; a match consumes at least 8 characters and a
kept character consumes one, so the fuel (the string length) is never
exhausted. -/
def stripUrlsGo : Nat → Str → Str
  | 0, s => s
  | _ + 1, [] => []
  | fuel + 1, c :: rest =>
    match urlMatchLen (c :: rest) with
    | some n => stripUrlsGo fuel ((c :: rest).drop n)
    | none => c :: stripUrlsGo fuel rest

/-- `re.sub(r'https?://\S+', '', s)`: the regex engine's left-to-right
scan, removing each match. -/
def stripUrls (s : Str) : Str := stripUrlsGo s.length s

/-- Length of the match of `\S+@\S+` at the start of `s`, if any.  At a
given start the first `\S+` needs at least one character before an `@`,
and the final greedy `\S+` extends the match to the end of the
non-whitespace run, so a match exists exactly when the run has an `@`
that is neither its first nor its last character, and it covers the whole
run. -/
def emailMatchLen : Str → Option Nat
  | [] => none
  | c :: rest =>
    if isPySpace c then none
    else
      let run := (c :: rest).takeWhile (fun d => !isPySpace d)
      if '@' ∈ (run.drop 1).dropLast then some run.length else none

/-- Worker for `stripEmails`; a match consumes at least one character (the
matched run is non-empty), so the fuel (the string length) is never
exhausted. -/
def stripEmailsGo : Nat → Str → Str
  | 0, s => s
  | _ + 1, [] => []
  | fuel + 1, c :: rest =>
    match emailMatchLen (c :: rest) with
    | some n => stripEmailsGo fuel ((c :: rest).drop n)
    | none => c :: stripEmailsGo fuel rest

/-- `re.sub(r'\S+@\S+', '', s)`. -/
def stripEmails (s : Str) : Str := stripEmailsGo s.length s

/-- `DescriptionSummarizer._clean_content`. -/
def cleanContent (content : Str) : Str :=
  let c := pyStrip (collapseWs content)
  let c := noiseLeadIns.foldl noiseStep c
  let c := stripUrls c
  let c := stripEmails c
  pyStrip c

/-- Sentence-ending punctuation of `re.split(r'(?<=[.!?])\s+', ...)`. -/
def isSentEnd (c : Char) : Bool := c = '.' || c = '!' || c = '?'

/-- Split on every whitespace run preceded by `.`/`!`/`?` (the lookbehind
checks the previous character, held at the head of the reversed
accumulator); each step consumes at least one character, so the fuel
(the string length) is never exhausted. -/
def splitSentencesGo : Nat → Str → Str → List Str
  | 0, acc, _ => [acc.reverse]
  | _ + 1, acc, [] => [acc.reverse]
  | fuel + 1, acc, c :: rest =>
    if isPySpace c && (match acc with | p :: _ => isSentEnd p | [] => false) then
      acc.reverse :: splitSentencesGo fuel [] (rest.dropWhile isPySpace)
    else splitSentencesGo fuel (c :: acc) rest

/-- `re.split(r'(?<=[.!?])\s+', text)`. -/
def splitSentences (text : Str) : List Str := splitSentencesGo text.length [] text

/-- Case-insensitive (ASCII) anchored literal match, as in `re.match`
with `re.IGNORECASE` on a literal pattern part. -/
def startsWithCI (s pat : Str) : Bool := (pyLower pat).isPrefixOf (pyLower s)

/-- `re.match(r'^LIT\s+', t, re.IGNORECASE)`: the literal, then at least
one whitespace character. -/
def hasLitThenWs (t lit : Str) : Bool :=
  startsWithCI t lit &&
    (match (t.drop lit.length).head? with | some c => isPySpace c | none => false)

/-- `re.match(r'^LIT1\s+LIT2', t, re.IGNORECASE)`. -/
def hasLitWsLit (t lit1 lit2 : Str) : Bool :=
  startsWithCI t lit1 &&
    (let r := t.drop lit1.length
     decide (r.takeWhile isPySpace ≠ []) && startsWithCI (r.dropWhile isPySpace) lit2)

/-- `re.match(r'^LIT\s*C', t, re.IGNORECASE)` for a one-character tail. -/
def hasLitWsChar (t lit : Str) (c : Char) : Bool :=
  startsWithCI t lit && ((t.drop lit.length).dropWhile isPySpace).head? = some c

/-- `re.match(r'^LIT\s*$', t, re.IGNORECASE)` (inputs here are stripped
sentences without newlines, so `$` is end of string). -/
def hasLitWsEnd (t lit : Str) : Bool :=
  startsWithCI t lit && ((t.drop lit.length).dropWhile isPySpace) = []

/-- First `_is_navigation_text` pattern, `r'^[A-Z][a-z]+\s+â†’'`
(the arrow literal is the mojibake three-character sequence
U+00E2 U+2020 U+2019 present in the source).  Under `re.IGNORECASE`
both character classes match any ASCII letter. -/
def navArrowLit : Str := ['â', '†', '’']

def navMatchArrow : Str → Bool
  | [] => false
  | c :: rest =>
    c.isAlpha &&
      (let letters := rest.takeWhile Char.isAlpha
       let r2 := rest.dropWhile Char.isAlpha
       decide (letters ≠ []) &&
         decide (r2.takeWhile isPySpace ≠ []) &&
         decide (pyLower ((r2.dropWhile isPySpace).take 3) = pyLower navArrowLit))

/-- `DescriptionSummarizer._is_navigation_text`. -/
def isNavigationText (t : Str) : Bool :=
  navMatchArrow t
  || hasLitThenWs t "Click".toList
  || hasLitThenWs t "Select".toList
  || hasLitWsLit t "Navigate".toList "to".toList
  || hasLitWsLit t "Go".toList "to".toList
  || hasLitWsChar t "Menu".toList ':'
  || hasLitWsEnd t "Home".toList
  || hasLitWsEnd t "Back".toList

/-- `DescriptionSummarizer._extract_sentences`: split, strip, keep length
in [20, 300], drop navigation-looking text. -/
def extractSentences (text : Str) : List Str :=
  (splitSentences text).filterMap (fun sent =>
    let s := pyStrip sent
    if 20 ≤ s.length ∧ s.length ≤ 300 then
      if isNavigationText s then none else some s
    else none)

/-- The fixed action-verb list of `_score_sentence`. -/
def actionWords : List Str :=
  ["provides".toList, "enables".toList, "allows".toList, "supports".toList,
   "manages".toList, "handles".toList, "processes".toList, "creates".toList,
   "generates".toList, "sends".toList, "receives".toList, "configures".toList,
   "sets".toList, "displays".toList, "shows".toList]

/-- `DescriptionSummarizer._score_sentence`, with the float score scaled
by 2 to an exact integer (+2.0 → +4, −1.0 → −2, +1.0 → +2, −2.0 → −4,
−0.5 → −1); scaling by a positive constant preserves every comparison
the selection step makes.  The uppercase test `count > len(sentence)*0.3`
is modelled by the exact `10*count > 3*len`; for the double-precision
product `len*0.3` this agrees at every integer threshold (the rounding
error of the float product is below half an ulp of the exact value), so
the integer model decides the comparison identically. -/
def scoreSentence (sentence : Str) : Int :=
  let lower := pyLower sentence
  (if actionWords.any (fun w => containsSubstr lower w) then (4 : Int) else 0)
  + (if '?' ∈ sentence then (-2 : Int) else 0)
  + (if 8 ≤ (pySplitWs sentence).length then (2 : Int) else 0)
  + (if 3 * sentence.length < 10 * (sentence.filter Char.isUpper).length
     then (-4 : Int) else 0)
  + (if sentence.length < 40 then (-1 : Int) else 0)

/-- Stable insertion into a score-descending list: the new element (which
comes earlier in the original order) is placed before every element with
an equal or smaller score. -/
def insertScoredDesc (x : Int × Str) : List (Int × Str) → List (Int × Str)
  | [] => [x]
  | y :: ys => if x.1 < y.1 then y :: insertScoredDesc x ys else x :: y :: ys

/-- `scored.sort(key=lambda x: x[0], reverse=True)`: Python's sort is
stable, and the stable score-descending ordering of a list is unique, so
insertion sort from the right computes the same list Timsort does. -/
def stableSortScoredDesc (l : List (Int × Str)) : List (Int × Str) :=
  l.foldr insertScoredDesc []

/-- The texts of the top `maxSentences` entries of the stable
score-descending sort of the first 20 candidates (`scored`,
`scored.sort(... reverse=True)`, `scored[:self.max_sentences]`). -/
def selectedTexts (d : DescriptionSummarizer) (sentences : List Str) : List Str :=
  ((stableSortScoredDesc ((sentences.take 20).map
      (fun s => (scoreSentence s, s)))).take d.maxSentences).map (·.2)

/-- The re-collection loop of `_select_sentences`: scan all candidates in
original order, append every one whose text is in `selected`, and break
as soon as the result holds `maxS` entries (`c` counts entries already
appended). -/
def collectSel (selected : List Str) (maxS : Nat) : List Str → Nat → List Str
  | [], _ => []
  | x :: xs, c =>
    if x ∈ selected then
      if maxS ≤ c + 1 then [x]
      else x :: collectSel selected maxS xs (c + 1)
    else collectSel selected maxS xs c

/-- `DescriptionSummarizer._select_sentences`. -/
def selectSentences (d : DescriptionSummarizer) (sentences : List Str) : List Str :=
  if sentences = [] then []
  else
    let selected := selectedTexts d sentences
    let result := collectSel selected d.maxSentences sentences 0
    if result = [] then sentences.take d.maxSentences else result

/-- `' '.join(parts)`. -/
def joinSpace : List Str → Str
  | [] => []
  | x :: xs => x ++ xs.flatMap (fun s => ' ' :: s)

/-- The greedy whole-sentence truncation of `_finalize_description` for
descriptions longer than 500 characters. -/
def truncGreedy : List Str → Nat → List Str
  | [], _ => []
  | s :: rest, len =>
    if len + s.length ≤ 500 then s :: truncGreedy rest (len + s.length + 1)
    else []

/-- `DescriptionSummarizer._finalize_description`. -/
def finalizeDescription (d : DescriptionSummarizer) (description : Str) : Str :=
  let de := pyStrip (collapseWs description)
  let de :=
    if !de.isEmpty && !(match de.getLast? with | some c => isSentEnd c | none => true) then
      de ++ ['.']
    else de
  if de.length < d.minLength then []
  else
    let de := if 500 < de.length then joinSpace (truncGreedy (splitSentences de) 0) else de
    pyStrip de

/-- `DescriptionSummarizer.generate_description`. -/
def generateDescription (d : DescriptionSummarizer) (content : Str) : Str :=
  if content = [] ∨ (pyStrip content).length < d.minLength then []
  else
    let cleaned := cleanContent content
    let sentences := extractSentences cleaned
    if sentences = [] then []
    else finalizeDescription d (joinSpace (selectSentences d sentences))

/-!
### `parser.py` — `ContentParser._extract_headings`

The (boilerplate-stripped) document is modelled as the sequence of its
elements in document order; `soup.find_all('hN')` returns the elements
with that tag name in document order, and `tag.get_text(strip=True)`
yields the element's stripped text.
-/

/-- An HTML element as seen by heading extraction: tag name, text
content, and `id` attribute (absent attribute modelled as `""`,
matching `tag.get('id', '')`). -/
structure HtmlElem where
  tag : Str
  text : Str
  elemId : Str
deriving DecidableEq, Repr

/-- The tag name `h<level>`. -/
def hTagName (level : Nat) : Str := 'h' :: (Nat.repr level).toList

/-- One heading record of `_extract_headings`: `level`, `text`, `id`,
`tag`. -/
structure HeadingRec where
  level : Nat
  text : Str
  anchorId : Str
  tag : Str
deriving DecidableEq, Repr

/-- `ContentParser._extract_headings`: `for level in range(1, 5): for tag
in soup.find_all(f'h{level}'): ...` — one record per `h1`..`h4` element
with non-empty stripped text. -/
def extractHeadings (doc : List HtmlElem) : List HeadingRec :=
  (List.range' 1 4).flatMap (fun level =>
    (doc.filter (fun e => e.tag = hTagName level)).filterMap (fun e =>
      let t := pyStrip e.text
      if t ≠ [] then some ⟨level, t, e.elemId, hTagName level⟩ else none))

/-- The heading level (1–4) denoted by a tag name, if any. -/
def tagLevel (t : Str) : Option Nat :=
  if t = "h1".toList then some 1
  else if t = "h2".toList then some 2
  else if t = "h3".toList then some 3
  else if t = "h4".toList then some 4
  else none

/-- Modelled from the spec's words, for comparison with
`extractHeadings`: "every `h1`..`h4` element with non-empty text,
collected in document order, each tagged with its level (1–4), text, and
optional anchor id". -/
def specHeadingsDocOrder (doc : List HtmlElem) : List HeadingRec :=
  doc.filterMap (fun e =>
    match tagLevel e.tag with
    | none => none
    | some level =>
      let t := pyStrip e.text
      if t ≠ [] then some ⟨level, t, e.elemId, hTagName level⟩ else none)

/-!
### `inference.py` — `ModuleInference`
-/

/-- The anchored leading-outline-number regex of `_clean_heading`,
`re.sub(r'^\d+\.?\d*\.?\d*\s*', '', text)`.  Every regex piece is greedy
and the later pieces are optional, so maximal munch left to right needs
no backtracking. -/
def stripOutlineNum (s : Str) : Str :=
  if s.takeWhile isPyDigit = [] then s
  else
    let r := s.dropWhile isPyDigit
    let r := if r.head? = some '.' then r.drop 1 else r
    let r := r.dropWhile isPyDigit
    let r := if r.head? = some '.' then r.drop 1 else r
    let r := r.dropWhile isPyDigit
    r.dropWhile isPySpace

/-- The decorative marker characters stripped by `_clean_heading`. -/
def headingMarkers : List Char := ['#', '*', '→', '►', '▼']

/-- `ModuleInference._clean_heading`: strip, drop a leading outline
number, remove every marker character (stripping after each removal),
truncate to 100 characters (stripping), and strip. -/
def cleanHeading (text : Str) : Str :=
  let t := pyStrip text
  let t := stripOutlineNum t
  let t := headingMarkers.foldl (fun cur m => pyStrip (removeChar m cur)) t
  let t := if 100 < t.length then pyStrip (t.take 100) else t
  pyStrip t

/-- A heading as collected by `infer_modules` into `all_headings`:
`level`, `text`, `url`, `id`. -/
structure HeadingInfo where
  level : Nat
  text : Str
  url : Str
  anchorId : Str
deriving DecidableEq, Repr

/-- `content_map.get` (the heading-content dictionary built by
`infer_modules`), abstracted as a function into `Option`. -/
abbrev ContentMap := Str → Option Str

/-- `page_content_map[url]['text']`, abstracted as a function from URL
into `Option` of the page text (`none` models `url not in
page_content_map`). -/
abbrev PageTextMap := Str → Option Str

/-- Submodule table of a module: insertion-ordered `name ↦ content`. -/
abbrev SubMap := List (Str × Str)

/-- The per-module data of the `modules` dictionary: `'submodules'`,
`'content'`, `'url'`. -/
structure ModData where
  submodules : SubMap
  content : Str
  url : Str
deriving DecidableEq, Repr

/-- The insertion-ordered `modules` dictionary. -/
abbrev ModMap := List (Str × ModData)

/-- `ModuleInference._find_submodules_for_module`: locate the module
heading in `all_headings` by text and url, scan forward while headings
stay strictly deeper than the module's level, collect the headings at
exactly `level + 1` whose cleaned name has at least 3 characters, and
enter each cleaned name with empty content (`submodules[sub_name] = ''`,
duplicates collapsing onto the first entry).  The two candidate-list
parameters are unused, as in the source. -/
def findSubmodulesForModule (moduleHeading : HeadingInfo)
    (cand1 cand2 : List HeadingInfo) (allHeadings : List HeadingInfo) : SubMap :=
  match allHeadings.findIdx? (fun h =>
      h.text = moduleHeading.text && h.url = moduleHeading.url) with
  | none => []
  | some idx =>
    let targetLevel := moduleHeading.level + 1
    let scan := (allHeadings.drop (idx + 1)).takeWhile
      (fun h => !(h.level ≤ moduleHeading.level : Bool))
    let collected := scan.filter (fun h =>
      h.level = targetLevel && 3 ≤ (cleanHeading h.text).length)
    collected.foldl (fun acc h => assocSet acc (cleanHeading h.text) ([] : Str)) []

/-- The module-content lookup shared by strategies 1 and 2:
`content_map.get(f"{url}::{text}", content_map.get(text, ''))`, then the
page-text fallback when that is empty and the url is in
`page_content_map`. -/
def moduleContentFor (cm : ContentMap) (pm : PageTextMap) (url text : Str) : Str :=
  let c0 := match cm (url ++ "::".toList ++ text) with
    | some c => c
    | none => (cm text).getD []
  if c0 = [] then
    match pm url with
    | some t => t
    | none => c0
  else c0

/-- Merge freshly found submodules into a module's table:
`if sub_name not in modules[module_name]['submodules']: ... = sub_content`. -/
def mergeSubmodules (cur : SubMap) (subs : SubMap) : SubMap :=
  subs.foldl (fun acc p =>
    if (acc.lookup p.1).isSome then acc else acc ++ [p]) cur

/-- Update the submodule table of the entry named `name`. -/
def addSubsTo (modules : ModMap) (name : Str) (subs : SubMap) : ModMap :=
  modules.map (fun p =>
    if p.1 = name then (p.1, { p.2 with submodules := mergeSubmodules p.2.submodules subs })
    else p)

/-- Strategy 1 of `_build_hierarchy`: every H1 across all pages becomes a
module (cleaned name, rejected below 3 characters); its submodules are
found by the forward scan over `all_headings`. -/
def strategy1 (h1s h2s h3s : List HeadingInfo) (allH : List HeadingInfo)
    (cm : ContentMap) (pm : PageTextMap) : ModMap :=
  h1s.foldl (fun modules h1 =>
    let name := cleanHeading h1.text
    if name.length < 3 then modules
    else
      let subs := findSubmodulesForModule h1 h2s h3s allH
      let modules :=
        if (modules.lookup name).isSome then modules
        else modules ++ [(name, ⟨[], moduleContentFor cm pm h1.url h1.text, h1.url⟩)]
      addSubsTo modules name subs) []

/-- `defaultdict(int)` counting in first-occurrence order
(`h2_counts[h2['text']] += 1`). -/
def bumpCount (acc : List (Str × Nat)) (k : Str) : List (Str × Nat) :=
  if (acc.lookup k).isSome then
    acc.map (fun p => if p.1 = k then (p.1, p.2 + 1) else p)
  else acc ++ [(k, 1)]

/-- Stable insertion into a count-descending list (the element being
inserted precedes equal counts, matching Python's stable
`sorted(..., key=lambda x: x[1], reverse=True)`). -/
def insertCountDesc (x : Str × Nat) : List (Str × Nat) → List (Str × Nat)
  | [] => [x]
  | y :: ys => if x.2 < y.2 then y :: insertCountDesc x ys else x :: y :: ys

/-- Stable count-descending sort. -/
def sortCountDesc (l : List (Str × Nat)) : List (Str × Nat) :=
  l.foldr insertCountDesc []

/-- Strategy 2 of `_build_hierarchy`: count the occurrence frequency of
each distinct H2 text across all pages, take the top 15 by frequency
(stable order), and make each a module; submodules are the H3 headings
found by the same forward scan from the first H2 heading with that
text. -/
def strategy2 (h2s h3s : List HeadingInfo) (allH : List HeadingInfo)
    (cm : ContentMap) (pm : PageTextMap) : ModMap :=
  let counts := h2s.foldl (fun acc h => bumpCount acc h.text) []
  let top := (sortCountDesc counts).take 15
  top.foldl (fun modules p =>
    let name := cleanHeading p.1
    if name.length < 3 then modules
    else
      match h2s.find? (fun h => h.text = p.1) with
      | none => modules
      | some h2obj =>
        let subs := findSubmodulesForModule h2obj h3s [] allH
        let modules :=
          if (modules.lookup name).isSome then modules
          else modules ++ [(name, ⟨[], moduleContentFor cm pm h2obj.url p.1, h2obj.url⟩)]
        addSubsTo modules name subs) []

/-- The generic path segments ignored by `_infer_from_urls_and_titles`
(the empty-string entry of the source tuple is subsumed by the non-empty
filter). -/
def genericSegments : List Str :=
  ["docs".toList, "documentation".toList, "help".toList, "support".toList]

/-- The module name derived from a URL's first meaningful path segment:
hyphens and underscores to spaces, then `str.title()`. -/
def segmentName (seg : Str) : Str :=
  pyTitle (replaceChar '_' ' ' (replaceChar '-' ' ' seg))

/-- `defaultdict(list)` append in first-occurrence order. -/
def appendToGroup (acc : List (Str × List HeadingInfo)) (k : Str) (h : HeadingInfo) :
    List (Str × List HeadingInfo) :=
  if (acc.lookup k).isSome then
    acc.map (fun p => if p.1 = k then (p.1, p.2 ++ [h]) else p)
  else acc ++ [(k, [h])]

/-- Strategy 3, `ModuleInference._infer_from_urls_and_titles`: group the
headings by the title-cased first non-generic path segment of their
origin URL; a group with at least 2 headings becomes a module whose
submodules are its headings of level ≥ 2 (cleaned, ≥ 3 characters). -/
def strategy3 (headings : List HeadingInfo) (cm : ContentMap) (pm : PageTextMap) :
    ModMap :=
  let groups := headings.foldl (fun acc h =>
    let segs := (splitChar '/' (urlparse h.url).path).filter
      (fun s => s ≠ [] && !(genericSegments.contains s))
    match segs with
    | [] => acc
    | seg :: _ =>
      let m := segmentName seg
      if m ≠ [] ∧ 3 ≤ m.length then appendToGroup acc m h else acc) []
  groups.foldl (fun modules p =>
    if 2 ≤ p.2.length then
      let url0 := match p.2 with
        | h :: _ => h.url
        | [] => []
      let subs := p.2.foldl (fun s h =>
        if 2 ≤ h.level then
          let sn := cleanHeading h.text
          if 3 ≤ sn.length then assocSet s sn ([] : Str) else s
        else s) []
      modules ++ [(p.1, ⟨subs, [], url0⟩)]
    else modules) []

/-- `ModuleInference._build_hierarchy`: group the headings by level, then
run the three strategies with the source's guards (strategy 1 when H1
headings exist; strategy 2 when no modules yet and H2 headings exist;
strategy 3 when still no modules). -/
def buildHierarchy (headings : List HeadingInfo) (cm : ContentMap) (pm : PageTextMap) :
    ModMap :=
  let h1s := headings.filter (fun h => h.level = 1)
  let h2s := headings.filter (fun h => h.level = 2)
  let h3s := headings.filter (fun h => h.level = 3)
  let modules := if h1s ≠ [] then strategy1 h1s h2s h3s headings cm pm else []
  let modules :=
    if modules = [] ∧ h2s ≠ [] then strategy2 h2s h3s headings cm pm else modules
  if modules = [] then strategy3 headings cm pm else modules

/-!
### `pipeline.py` — `ExtractionPipeline`
-/

/-- A parsed page as consumed by steps 3–4 of the pipeline (the
`content_blocks` field is not read by these steps). -/
structure ParsedPageModel where
  url : Str
  title : Str
  headings : List HeadingRec
  text : Str
deriving DecidableEq, Repr

/-- The summarizer instance the pipeline constructs
(`DescriptionSummarizer()`, all defaults). -/
def pipelineSummarizer : DescriptionSummarizer := {}

/-- The step-4 content fallback: scan the parsed pages in order; a page
whose headings contain the (lowercased) name as a substring supplies its
page text, but an empty page text lets the scan continue (`if
module_content: break`). -/
def findFallbackContent : List ParsedPageModel → Str → Str
  | [], _ => []
  | p :: rest, name =>
    if p.headings.any (fun h => containsSubstr (pyLower h.text) (pyLower name)) then
      if p.text ≠ [] then p.text else findFallbackContent rest name
    else findFallbackContent rest name

/-- A module entry after step 4: the generated `description` is attached
and every submodule's content has been replaced by its generated
description. -/
structure ModDataDesc where
  submodules : SubMap
  content : Str
  url : Str
  description : Str
deriving DecidableEq, Repr

/-- Step 4 of `ExtractionPipeline.extract` ("Generating descriptions"):
for every module, summarize its content (with the page fallback when the
content is empty), and likewise for every submodule. -/
def generateDescriptionsStep (pages : List ParsedPageModel) (mods : ModMap) :
    List (Str × ModDataDesc) :=
  mods.map (fun p =>
    let mcontent := if p.2.content ≠ [] then p.2.content
      else findFallbackContent pages p.1
    let mdesc := generateDescription pipelineSummarizer mcontent
    let subs := p.2.submodules.map (fun q =>
      let scontent := if q.2 ≠ [] then q.2 else findFallbackContent pages q.1
      (q.1, generateDescription pipelineSummarizer scontent))
    (p.1, ⟨subs, p.2.content, p.2.url, mdesc⟩))

/-- One record of the pipeline's final output list; the fields carry the
JSON keys `"module"`, `"Description"`, `"Submodules"`. -/
structure OutputModule where
  module : Str
  description : Str
  submodules : SubMap
deriving DecidableEq, Repr

/-- `ExtractionPipeline._format_output`: regenerate a missing module
description from the stored content, keep only submodules with non-empty
descriptions, and emit the module only when it has a non-empty
description or a surviving submodule; an empty description is replaced
by the placeholder `"Module for " + name`. -/
def formatOutput (mods : List (Str × ModDataDesc)) : List OutputModule :=
  mods.flatMap (fun p =>
    let mdesc := if p.2.description ≠ [] then p.2.description
      else generateDescription pipelineSummarizer p.2.content
    let subsDict := p.2.submodules.filter (fun q => q.2 ≠ [])
    if mdesc ≠ [] ∨ subsDict ≠ [] then
      [⟨p.1, (if mdesc ≠ [] then mdesc else "Module for ".toList ++ p.1), subsDict⟩]
    else [])

/-!
#### `ExtractionPipeline.extract` with its exception channel

For the top-level error-handling claim the four stages are abstracted as
fallible functions (`Except` models a raised Python exception); the body
mirrors the `try:` block of `extract`, including the early returns and
the per-page `try/except` of step 2, and the outer handler mirrors the
`except Exception` clause.
-/

/-- `ExtractionPipeline._log`: the entry `f"[{level}] {message}"`. -/
def logEntry (level msg : Str) : Str := ['['] ++ level ++ [']', ' '] ++ msg

/-- A raw fetched page as handed from the crawler to the parser. -/
structure RawPage where
  url : Str
  html : Str
deriving DecidableEq, Repr

/-- The `stats` dictionary of a successful `extract` run. -/
structure PipeStats where
  pagesCrawled : Nat
  pagesParsed : Nat
  modulesFound : Nat
deriving DecidableEq, Repr

/-- The dictionary `extract` returns. -/
structure PipeResult where
  modules : List OutputModule
  logs : List Str
  stats : Option PipeStats
deriving DecidableEq, Repr

/-- Step 2 of `extract`: parse each page, logging a warning and dropping
the page when the parser raises (the inner `try/except`). -/
def parsePagesStep (parseF : Str → Str → Except Str ParsedPageModel)
    (pages : List RawPage) (logs : List Str) : List ParsedPageModel × List Str :=
  pages.foldl (fun acc page =>
    match parseF page.html page.url with
    | .ok p => (acc.1 ++ [p], acc.2)
    | .error e => (acc.1, acc.2 ++
        [logEntry "WARNING".toList ("Error parsing ".toList ++ page.url ++ ": ".toList ++ e)]))
    (([], logs))

/-- Step 4 with a fallible summarizer. -/
def step4E (genF : Str → Except Str Str) (pages : List ParsedPageModel)
    (mods : ModMap) : Except Str (List (Str × ModDataDesc)) :=
  mods.mapM (fun p => do
    let mcontent := if p.2.content ≠ [] then p.2.content
      else findFallbackContent pages p.1
    let mdesc ← genF mcontent
    let subs ← p.2.submodules.mapM (fun q => do
      let scontent := if q.2 ≠ [] then q.2 else findFallbackContent pages q.1
      let sd ← genF scontent
      pure (q.1, sd))
    pure (p.1, ⟨subs, p.2.content, p.2.url, mdesc⟩))

/-- `_format_output` with a fallible summarizer (its regeneration call
sits inside the `try:` block of `extract`). -/
def formatOutputE (genF : Str → Except Str Str) (mods : List (Str × ModDataDesc)) :
    Except Str (List OutputModule) :=
  mods.foldlM (fun acc p => do
    let mdesc ← if p.2.description ≠ [] then pure p.2.description
      else genF p.2.content
    let subsDict := p.2.submodules.filter (fun q => q.2 ≠ [])
    pure (acc ++ (if mdesc ≠ [] ∨ subsDict ≠ [] then
      [OutputModule.mk p.1
        (if mdesc ≠ [] then mdesc else "Module for ".toList ++ p.1) subsDict]
    else []))) []

/-- The body of the `try:` block of `ExtractionPipeline.extract`.  An
`Except.error` carries the logs accumulated up to the raise together
with the exception text. -/
def extractBody (crawlF : List Str → Except Str (List RawPage))
    (parseF : Str → Str → Except Str ParsedPageModel)
    (inferF : List ParsedPageModel → Except Str ModMap)
    (genF : Str → Except Str Str) (urls : List Str) :
    Except (List Str × Str) PipeResult :=
  let info := ("INFO".toList : Str)
  let logs := [logEntry info ("Starting extraction for ".toList
      ++ (Nat.repr urls.length).toList ++ " URL(s)".toList),
    logEntry info "Step 1: Crawling URLs...".toList]
  match crawlF urls with
  | .error e => .error (logs, e)
  | .ok pages =>
    let logs := logs ++ [logEntry info ("Crawled ".toList
      ++ (Nat.repr pages.length).toList ++ " pages".toList)]
    if pages = [] then
      .ok ⟨[], logs ++ [logEntry "WARNING".toList
        "No pages were crawled. Check URLs and network connectivity.".toList], none⟩
    else
      let logs := logs ++ [logEntry info "Step 2: Parsing HTML content...".toList]
      let pl := parsePagesStep parseF pages logs
      let logs := pl.2 ++ [logEntry info ("Parsed ".toList
        ++ (Nat.repr pl.1.length).toList ++ " pages".toList)]
      if pl.1 = [] then
        .ok ⟨[], logs ++ [logEntry "WARNING".toList
          "No pages were successfully parsed.".toList], none⟩
      else
        let logs := logs ++ [logEntry info
          "Step 3: Inferring modules and submodules...".toList]
        match inferF pl.1 with
        | .error e => .error (logs, e)
        | .ok mods =>
          let logs := logs ++ [logEntry info ("Inferred ".toList
              ++ (Nat.repr mods.length).toList ++ " modules".toList),
            logEntry info "Step 4: Generating descriptions...".toList]
          match step4E genF pl.1 mods with
          | .error e => .error (logs, e)
          | .ok mods2 =>
            let logs := logs ++ [logEntry info "Step 5: Formatting output...".toList]
            match formatOutputE genF mods2 with
            | .error e => .error (logs, e)
            | .ok out =>
              let logs := logs ++ [logEntry info
                ("Extraction complete. Generated ".toList
                  ++ (Nat.repr out.length).toList ++ " modules".toList)]
              .ok ⟨out, logs, some ⟨pages.length, pl.1.length, out.length⟩⟩

/-- The text logged for `traceback.format_exc()`; its exact content is
produced by the Python runtime and is abstracted here as a function of
the exception. -/
def tracebackText (e : Str) : Str :=
  "Traceback (most recent call last): ".toList ++ e

/-- `ExtractionPipeline.extract`: the `try:` body with the top-level
`except Exception` handler, which logs the error plus the traceback and
returns an empty module list with the logs. -/
def pipelineExtract (crawlF : List Str → Except Str (List RawPage))
    (parseF : Str → Str → Except Str ParsedPageModel)
    (inferF : List ParsedPageModel → Except Str ModMap)
    (genF : Str → Except Str Str) (urls : List Str) : PipeResult :=
  match extractBody crawlF parseF inferF genF urls with
  | .ok r => r
  | .error le =>
    ⟨[], le.1 ++ [logEntry "ERROR".toList ("Pipeline error: ".toList ++ le.2),
      logEntry "ERROR".toList (tracebackText le.2)], none⟩

/-!
### `crawler.py` — `URLCrawler`

The network and the HTML/URL library calls are abstracted into a
deterministic environment: `fetch` models the outcome of `_fetch_page`
(`none` for a request error, non-2xx after retries, or non-HTML content
type), `hrefs` models BeautifulSoup's anchor-href extraction from a
page's HTML, `joinUrl` models `urllib.parse.urljoin`, and `robots`
models the per-domain `RobotFileParser` (`none` for a failed robots.txt
fetch, `some rp` giving `rp.can_fetch(UA, url)` with the crawler's fixed
user agent folded in).  The `robots_cache` dictionary memoizes lookups
of this deterministic environment within a run, so it is dropped from
the state.  The `while` loop is driven by explicit fuel; every claimed
invariant is proved for all fuel values.

The fetch depth of each page is recorded alongside the page purely for
specification; `_fetch_page` stores the requested URL in the page
dictionary, which the model mirrors.
-/

/-- Outcome data of a successful `_fetch_page`. -/
structure FetchData where
  html : Str
  statusCode : Nat
  contentType : Str
deriving DecidableEq, Repr

/-- A page dictionary produced by `_fetch_page`. -/
structure FetchedPage where
  url : Str
  html : Str
  statusCode : Nat
  contentType : Str
deriving DecidableEq, Repr

/-- The deterministic crawl environment (see the section comment). -/
structure WebEnv where
  fetch : Str → Option FetchData
  hrefs : Str → List Str
  joinUrl : Str → Str → Str
  robots : Str → Option (Str → Bool)

/-- Crawler configuration (`__init__`); `delay` and `timeout` only pace
the requests and do not influence the returned data. -/
structure CrawlCfg where
  maxDepth : Nat
  maxPages : Nat
  respectRobots : Bool
deriving DecidableEq, Repr

/-- The denylisted non-document path extensions of `_should_crawl_url`. -/
def extensionDenylist : List Str :=
  [".pdf".toList, ".jpg".toList, ".jpeg".toList, ".png".toList, ".gif".toList,
   ".svg".toList, ".ico".toList, ".js".toList, ".css".toList, ".xml".toList,
   ".zip".toList, ".tar".toList, ".gz".toList]

/-- The denylisted path segments of `_should_crawl_url`. -/
def pathSegmentDenylist : List Str :=
  ["login".toList, "signin".toList, "signup".toList, "register".toList,
   "logout".toList, "privacy".toList, "terms".toList, "legal".toList,
   "cookie".toList, "contact".toList]

/-- `URLCrawler._can_fetch` (over the memoized deterministic robots
environment): fail-open when robots.txt was unavailable. -/
def canFetch (env : WebEnv) (url domain : Str) : Bool :=
  match env.robots domain with
  | none => true
  | some rp => rp url

/-- `URLCrawler._should_crawl_url`. -/
def shouldCrawlUrl (env : WebEnv) (cfg : CrawlCfg) (url baseDomain : Str) : Bool :=
  let parsed := urlparse url
  (parsed.scheme = "http".toList ∨ parsed.scheme = "https".toList : Bool)
    && parsed.netloc = baseDomain
    && !(extensionDenylist.any (fun ext => ext.isSuffixOf (pyLower parsed.path)))
    && !((splitChar '/' parsed.path).filterMap
          (fun p => if p ≠ [] then some (pyLower p) else none)
        |>.any (fun part => pathSegmentDenylist.contains part))
    && (!cfg.respectRobots || canFetch env url baseDomain)

/-- `URLCrawler._extract_links`: every anchor href resolved against the
page URL and normalized. -/
def extractLinks (env : WebEnv) (html base : Str) : List Str :=
  (env.hrefs html).map (fun h => normalizeUrl (env.joinUrl base h))

/-- One iteration of the `while` loop of `URLCrawler.crawl` after the
`(url, depth)` pair has been popped: the visited / depth / admission
checks, the fetch, and link discovery.  Returns the new queue remainder,
visited set, and fetched pages. -/
def crawlStep (env : WebEnv) (cfg : CrawlCfg) (base : Str) (url : Str) (depth : Nat)
    (rest : List (Str × Nat)) (visited : List Str)
    (pages : List (FetchedPage × Nat)) :
    List (Str × Nat) × List Str × List (FetchedPage × Nat) :=
  if url ∈ visited then (rest, visited, pages)
  else if cfg.maxDepth < depth then (rest, visited, pages)
  else if !shouldCrawlUrl env cfg url base then (rest, visited, pages)
  else
    let visited := url :: visited
    match env.fetch url with
    | none => (rest, visited, pages)
    | some fd =>
      let pages := pages ++ [(⟨url, fd.html, fd.statusCode, fd.contentType⟩, depth)]
      let queue :=
        if depth < cfg.maxDepth then
          rest ++ ((extractLinks env fd.html url).filter
            (fun l => l ∉ visited ∧ shouldCrawlUrl env cfg l base)).map
              (fun l => (l, depth + 1))
        else rest
      (queue, visited, pages)

/-- The fuelled `while queue and len(pages) < max_pages` loop. -/
def crawlLoop (env : WebEnv) (cfg : CrawlCfg) (base : Str) :
    Nat → List (Str × Nat) → List Str → List (FetchedPage × Nat) →
    List (FetchedPage × Nat)
  | 0, _, _, pages => pages
  | fuel + 1, queue, visited, pages =>
    match queue with
    | [] => pages
    | (url, depth) :: rest =>
      if cfg.maxPages ≤ pages.length then pages
      else
        let st := crawlStep env cfg base url depth rest visited pages
        crawlLoop env cfg base fuel st.1 st.2.1 st.2.2

/-- Result of `URLCrawler.crawl`, with the different-domain seed
warnings the run logs. -/
structure CrawlOutcome where
  pages : List (FetchedPage × Nat)
  warnings : List Str
deriving Repr

/-- `URLCrawler.crawl`: normalize the seeds, lock the domain of the
first seed, log (but otherwise ignore — the validation loop's `continue`
has no effect) seeds on other domains, and run the BFS from all seeds at
depth 0 with a fresh visited set. -/
def crawl (env : WebEnv) (cfg : CrawlCfg) (fuel : Nat) (seedUrls : List Str) :
    CrawlOutcome :=
  let seeds := seedUrls.map normalizeUrl
  match seeds with
  | [] => ⟨[], []⟩
  | s0 :: _ =>
    let base := getDomain s0
    let warnings := (seeds.filter (fun u => ¬ (getDomain u = base))).map (fun u =>
      "Seed URL ".toList ++ u ++ " has different domain, skipping".toList)
    ⟨crawlLoop env cfg base fuel (seeds.map (fun u => (u, 0))) [] [], warnings⟩

/-!
### Concrete example data used by the witness theorems
-/

/-- A submodule table with one non-empty description. -/
def demoSubTokens : SubMap :=
  [("Tokens".toList,
    "Handles token issuing for the whole platform securely.".toList)]

/-- A module entry whose generated description is empty but which owns a
described submodule. -/
def demoModsKept : List (Str × ModDataDesc) :=
  [("Auth".toList, ⟨demoSubTokens, [], "u".toList, []⟩)]

/-- The record `_format_output` emits for `demoModsKept`. -/
def demoOutAuth : OutputModule :=
  ⟨"Auth".toList, "Module for ".toList ++ "Auth".toList, demoSubTokens⟩

/-- A module whose only content is a 10-character fragment and which has
no submodules (end-to-end scenario D). -/
def demoModsFragment : ModMap :=
  [("Widgets".toList, ⟨[], "0123456789".toList, "u".toList⟩)]

/-- A crawl environment with one fetchable page containing one link. -/
def demoEnv : WebEnv where
  fetch u := if u = "https://a.com/".toList then
      some ⟨"<html>".toList, 200, "text/html".toList⟩
    else none
  hrefs h := if h = "<html>".toList then ["https://a.com/docs".toList] else []
  joinUrl _ h := h
  robots _ := none

/-- A crawl configuration with depth 1. -/
def demoCfg : CrawlCfg := ⟨1, 10, true⟩

/-- Candidate sentences, pairwise distinct, for the selection witness. -/
def demoSentences : List Str :=
  ["the quick brown fox jumps here.".toList,
   "a second rather plain sentence.".toList,
   "This module provides many useful features for administrators overall.".toList,
   "yet another plain filler sentence.".toList]

/-!
## Theorems

Shared helper lemmas first, then one theorem per claim (with its
witness or counterexample).
-/

theorem pyLStrip_sublist (s : Str) : (pyLStrip s).Sublist s :=
  (List.dropWhile_suffix isPySpace).sublist

theorem pyRStrip_isPre (s : Str) : pyRStrip s <+: s := by
  have h := List.dropWhile_suffix (l := s.reverse) isPySpace
  have h2 := (@List.reverse_prefix Char
    (s.reverse.dropWhile isPySpace) s.reverse).2 h
  simpa [pyRStrip] using h2

theorem pyStrip_sublist (s : Str) : (pyStrip s).Sublist s :=
  ((pyRStrip_isPre (pyLStrip s)).sublist).trans (pyLStrip_sublist s)

theorem pyStrip_length_le (s : Str) : (pyStrip s).length ≤ s.length :=
  (pyStrip_sublist s).length_le

theorem mem_of_mem_pyStrip {c : Char} {s : Str} (h : c ∈ pyStrip s) : c ∈ s :=
  (pyStrip_sublist s).mem h

theorem mem_of_mem_removeChar {c m : Char} {s : Str} (h : c ∈ removeChar m s) :
    c ∈ s :=
  (List.mem_filter.1 h).1

theorem not_mem_removeChar_self (m : Char) (s : Str) : m ∉ removeChar m s := by
  intro h
  have := (List.mem_filter.1 h).2
  simp at this

/-- Absence of a character is preserved by the marker-removal fold of
`cleanHeading`. -/
theorem not_mem_markerFold {c : Char} {markers : List Char} {cur : Str}
    (h : c ∉ cur) :
    c ∉ markers.foldl (fun cur m => pyStrip (removeChar m cur)) cur := by
  induction markers generalizing cur with
  | nil => exact h
  | cons m rest ih =>
    exact ih (fun hc => h (mem_of_mem_removeChar (mem_of_mem_pyStrip hc)))

/-- Every listed marker is absent after the marker-removal fold. -/
theorem marker_not_mem_markerFold {c : Char} {markers : List Char} {cur : Str}
    (h : c ∈ markers) :
    c ∉ markers.foldl (fun cur m => pyStrip (removeChar m cur)) cur := by
  induction markers generalizing cur with
  | nil => cases h
  | cons m rest ih =>
    rcases List.mem_cons.1 h with rfl | hm
    · simp only [List.foldl_cons]
      exact not_mem_markerFold
        (fun hc => not_mem_removeChar_self c cur (mem_of_mem_pyStrip hc))
    · exact ih hm

theorem head?_dropWhile_false {p : Char → Bool} {l : Str} {c : Char}
    (h : (l.dropWhile p).head? = some c) : p c = false := by
  have hne : l.dropWhile p ≠ [] := by intro he; rw [he] at h; cases h
  have h2 := List.head_dropWhile_not p l hne
  have h3 : (l.dropWhile p).head hne = c := by
    have h4 := List.head?_eq_head hne
    rw [h4] at h
    exact Option.some.inj h
  rw [h3] at h2
  exact h2

theorem isPre_head?_eq {l₁ l₂ : Str} (h : l₁ <+: l₂) (hne : l₁ ≠ []) :
    l₂.head? = l₁.head? := by
  obtain ⟨t, rfl⟩ := h
  cases l₁ with
  | nil => exact absurd rfl hne
  | cons a l => simp

/-- The first character of a stripped string is not whitespace. -/
theorem pyStrip_head_not_space {s : Str} {c : Char}
    (h : (pyStrip s).head? = some c) : isPySpace c = false := by
  have hne : pyStrip s ≠ [] := by intro he; rw [he] at h; cases h
  have hpre := pyRStrip_isPre (pyLStrip s)
  have heq := isPre_head?_eq hpre hne
  have hh : (pyLStrip s).head? = some c := by rw [heq]; exact h
  exact head?_dropWhile_false (p := isPySpace) (l := s) hh

/-- The last character of a stripped string is not whitespace. -/
theorem pyStrip_getLast_not_space {s : Str} {c : Char}
    (h : (pyStrip s).getLast? = some c) : isPySpace c = false := by
  unfold pyStrip pyRStrip at h
  rw [List.getLast?_reverse] at h
  exact head?_dropWhile_false h

theorem cleanHeading_eq_pyStrip (s : Str) : ∃ t, cleanHeading s = pyStrip t := by
  unfold cleanHeading
  exact ⟨_, rfl⟩

/--
Claim C9.  `_clean_heading` trims whitespace, strips a leading numeric
outline prefix, removes the decorative markers `#`, `*`, `→`, `►`, `▼`
everywhere, and truncates to 100 characters; in particular
`clean("1.2 Getting Started") = "Getting Started"` and
`clean("##") = ""` (whose length 0 is below the 3-character minimum that
every consumer of `_clean_heading` enforces, so the heading contributes
nothing).  Formally: the result never exceeds 100 characters, contains
no marker character, and starts/ends with non-whitespace; plus the two
concrete evaluations.
-/
theorem claim_c9 : ∀ s : Str,
    ((cleanHeading s).length ≤ 100
      ∧ (∀ m ∈ headingMarkers, m ∉ cleanHeading s)
      ∧ (∀ c, (cleanHeading s).head? = some c → isPySpace c = false)
      ∧ (∀ c, (cleanHeading s).getLast? = some c → isPySpace c = false))
    ∧ cleanHeading "1.2 Getting Started".toList = "Getting Started".toList
    ∧ cleanHeading "##".toList = [] := by
  intro s
  refine ⟨⟨?_, ?_, ?_, ?_⟩, by decide, by decide⟩
  · simp only [cleanHeading]
    split
    · calc (pyStrip (pyStrip (List.take 100 _))).length
          ≤ (pyStrip (List.take 100 _)).length := pyStrip_length_le _
        _ ≤ (List.take 100 _).length := pyStrip_length_le _
        _ ≤ 100 := by simp
    · calc (pyStrip _).length ≤ _ := pyStrip_length_le _
        _ ≤ 100 := by omega
  · intro m hm hmem
    simp only [cleanHeading] at hmem
    have hfold := @marker_not_mem_markerFold m headingMarkers
      (stripOutlineNum (pyStrip s)) hm
    revert hmem
    split
    · intro hmem
      exact hfold ((List.take_sublist _ _).mem
        (mem_of_mem_pyStrip (mem_of_mem_pyStrip hmem)))
    · intro hmem
      exact hfold (mem_of_mem_pyStrip hmem)
  · intro c hc
    obtain ⟨t, ht⟩ := cleanHeading_eq_pyStrip s
    rw [ht] at hc
    exact pyStrip_head_not_space hc
  · intro c hc
    obtain ⟨t, ht⟩ := cleanHeading_eq_pyStrip s
    rw [ht] at hc
    exact pyStrip_getLast_not_space hc

/-- Witness for C9 at a concrete input: `#` is a listed marker and is
absent from `clean("a# b")`, whose value also starts and ends with
non-whitespace. -/
theorem claim_c9_witness :
    ('#' ∈ headingMarkers ∧ '#' ∉ cleanHeading "a# b".toList)
    ∧ cleanHeading "1.2 Getting Started".toList = "Getting Started".toList := by
  exact ⟨⟨by decide, (claim_c9 "a# b".toList).1.2.1 '#' (by decide)⟩,
    (claim_c9 []).2.1⟩

/--
Counterexample to claim C1 as stated: on a page whose `h2` element
precedes its `h1` element, `_extract_headings` returns the `h1` record
first (the extraction loops over the levels 1..4 and collects each
level's elements separately), so the returned sequence is not in
document order.
-/
theorem claim_c1_counterexample :
    extractHeadings
        [⟨"h2".toList, "Alpha".toList, "a".toList⟩,
         ⟨"h1".toList, "Beta".toList, "b".toList⟩]
      = [⟨1, "Beta".toList, "b".toList, "h1".toList⟩,
         ⟨2, "Alpha".toList, "a".toList, "h2".toList⟩]
    ∧ specHeadingsDocOrder
        [⟨"h2".toList, "Alpha".toList, "a".toList⟩,
         ⟨"h1".toList, "Beta".toList, "b".toList⟩]
      = [⟨2, "Alpha".toList, "a".toList, "h2".toList⟩,
         ⟨1, "Beta".toList, "b".toList, "h1".toList⟩]
    ∧ extractHeadings
        [⟨"h2".toList, "Alpha".toList, "a".toList⟩,
         ⟨"h1".toList, "Beta".toList, "b".toList⟩]
      ≠ specHeadingsDocOrder
        [⟨"h2".toList, "Alpha".toList, "a".toList⟩,
         ⟨"h1".toList, "Beta".toList, "b".toList⟩] := by
  refine ⟨by decide, by decide, by decide⟩

theorem tagLevel_injective_at (l : Nat) (hl : l = 1 ∨ l = 2 ∨ l = 3 ∨ l = 4) :
    ∀ t k, tagLevel t = some k → (t = hTagName l ↔ k = l) := by
  rcases hl with rfl | rfl | rfl | rfl <;>
    · intro t k h
      simp only [tagLevel] at h
      split_ifs at h with h1 h2 h3 h4
      · injection h with hk; subst hk; subst h1; decide
      · injection h with hk; subst hk; subst h2; decide
      · injection h with hk; subst hk; subst h3; decide
      · injection h with hk; subst hk; subst h4; decide

/-- For a fixed level, the document-order heading records at that level
are exactly the records the per-level pass of `_extract_headings`
collects. -/
theorem specFilter_level (l : Nat) (hsome : tagLevel (hTagName l) = some l)
    (hinj : ∀ t k, tagLevel t = some k → (t = hTagName l ↔ k = l)) :
    ∀ doc : List HtmlElem,
      (specHeadingsDocOrder doc).filter (fun r => r.level = l)
        = (doc.filter (fun e => e.tag = hTagName l)).filterMap (fun e =>
            let t := pyStrip e.text
            if t ≠ [] then some ⟨l, t, e.elemId, hTagName l⟩ else none) := by
  intro doc
  induction doc with
  | nil => rfl
  | cons e d ih =>
    simp only [specHeadingsDocOrder, List.filterMap_cons, List.filter_cons]
    cases htl : tagLevel e.tag with
    | none =>
      have hne : ¬ (e.tag = hTagName l) := by
        intro he
        rw [he, hsome] at htl
        cases htl
      simp only [htl, hne]
      simpa [specHeadingsDocOrder] using ih
    | some k =>
      by_cases htext : pyStrip e.text = []
      · by_cases he : e.tag = hTagName l <;>
          · simp only [htl, he, htext]
            simpa [specHeadingsDocOrder, htext] using ih
      · have hiff := hinj e.tag k htl
        by_cases hk : k = l
        · have he : e.tag = hTagName l := hiff.2 hk
          subst hk
          simp only [htl, he, htext]
          simpa [specHeadingsDocOrder, htext] using ih
        · have he : ¬ (e.tag = hTagName l) := fun h => hk (hiff.1 h)
          simp only [htl, he, htext, hk]
          simpa [specHeadingsDocOrder, htext, hk] using ih

/--
Claim C1, amended.  `_extract_headings` returns one record (level, text,
anchor id) per `h1`..`h4` element with non-empty stripped text, with no
deduplication — but grouped by level, not in overall document order: the
result is the document-order record sequence stably partitioned into the
level-1 records, then level-2, then level-3, then level-4 (each group
internally in document order).
-/
theorem claim_c1_amended (doc : List HtmlElem) :
    extractHeadings doc =
      ((specHeadingsDocOrder doc).filter (fun r => r.level = 1))
      ++ ((specHeadingsDocOrder doc).filter (fun r => r.level = 2))
      ++ ((specHeadingsDocOrder doc).filter (fun r => r.level = 3))
      ++ ((specHeadingsDocOrder doc).filter (fun r => r.level = 4)) := by
  have h1 := specFilter_level 1 (by decide)
    (tagLevel_injective_at 1 (Or.inl rfl)) doc
  have h2 := specFilter_level 2 (by decide)
    (tagLevel_injective_at 2 (Or.inr (Or.inl rfl))) doc
  have h3 := specFilter_level 3 (by decide)
    (tagLevel_injective_at 3 (Or.inr (Or.inr (Or.inl rfl)))) doc
  have h4 := specFilter_level 4 (by decide)
    (tagLevel_injective_at 4 (Or.inr (Or.inr (Or.inr rfl)))) doc
  rw [h1, h2, h3, h4]
  show (List.range' 1 4).flatMap _ = _
  have hr : List.range' 1 4 = [1, 2, 3, 4] := rfl
  rw [hr]
  simp [extractHeadings, List.flatMap_cons]

/--
Claim C3.  `_build_hierarchy` applies its three strategies in fixed
order with the first successful one winning and no blending: the result
equals strategy 1 (H1-as-module) whenever it yields any module; the
H2-as-module fallback `strategy2` (frequency count of distinct H2 texts,
top 15 taken as modules — see its definition) decides the result only
when strategy 1 yielded zero modules; and the URL-path fallback
`strategy3` only when both yielded zero modules.
-/
theorem claim_c3 (headings : List HeadingInfo) (cm : ContentMap) (pm : PageTextMap) :
    buildHierarchy headings cm pm =
      (let h1s := headings.filter (fun h => h.level = 1)
       let h2s := headings.filter (fun h => h.level = 2)
       let h3s := headings.filter (fun h => h.level = 3)
       let s1 := strategy1 h1s h2s h3s headings cm pm
       let s2 := strategy2 h2s h3s headings cm pm
       let s3 := strategy3 headings cm pm
       if s1 ≠ [] then s1 else if s2 ≠ [] then s2 else s3) := by
  simp only [buildHierarchy]
  by_cases h1 : headings.filter (fun h => h.level = 1) = [] <;>
    by_cases h2 : headings.filter (fun h => h.level = 2) = []
  · -- no H1 headings, no H2 headings: strategies 1 and 2 are empty folds
    rw [h1, h2]
    simp only [ne_eq, not_true_eq_false, if_false]
    have e1 : strategy1 [] [] (headings.filter (fun h => h.level = 3))
        headings cm pm = [] := rfl
    have e2 : strategy2 [] (headings.filter (fun h => h.level = 3))
        headings cm pm = [] := rfl
    simp [e1, e2]
  · -- no H1 headings: strategy 1 contributes nothing
    rw [h1]
    have e1 : strategy1 [] (headings.filter (fun h => h.level = 2))
        (headings.filter (fun h => h.level = 3)) headings cm pm = [] := rfl
    simp [e1, h2]
  · -- H1 present, no H2: strategy 2 is an empty fold
    rw [h2]
    have e2 : strategy2 [] (headings.filter (fun h => h.level = 3))
        headings cm pm = [] := rfl
    simp only [e2, h1, ne_eq, not_false_eq_true, if_true]
    split <;> simp_all
  · simp only [h1, h2, ne_eq, not_false_eq_true, if_true]
    split <;> simp_all

theorem moduleFor_ne_nil (n : Str) : "Module for ".toList ++ n ≠ [] := by
  have h : "Module for ".toList ++ n = 'M' :: ("odule for ".toList ++ n) := rfl
  rw [h]
  exact List.cons_ne_nil _ _

/--
Claim C10.  Every module record emitted by `_format_output` has a
non-empty `"Description"`: each emitted record comes from an entry of
the modules dictionary, and when that entry's (possibly regenerated)
description is empty — the record being kept only through a surviving
submodule — the `"Description"` field is the placeholder
`"Module for " + name`; otherwise it is that non-empty description.
-/
theorem claim_c10 : ∀ (mods : List (Str × ModDataDesc)) (o : OutputModule),
    o ∈ formatOutput mods →
      o.description ≠ []
      ∧ ∃ p ∈ mods, o.module = p.1 ∧
          (let d := if p.2.description ≠ [] then p.2.description
            else generateDescription pipelineSummarizer p.2.content
           if d = [] then o.description = "Module for ".toList ++ p.1
           else o.description = d) := by
  intro mods o ho
  simp only [formatOutput, List.mem_flatMap] at ho
  obtain ⟨p, hp, ho⟩ := ho
  by_cases hdesc : p.2.description = []
  · by_cases hgen : generateDescription pipelineSummarizer p.2.content = []
    · simp only [hdesc, hgen] at ho
      simp only [ne_eq, not_true_eq_false, if_false, false_or, reduceIte] at ho
      rw [List.mem_ite_nil_right] at ho
      obtain ⟨hsubs, ho⟩ := ho
      rw [List.mem_singleton] at ho
      subst ho
      exact ⟨moduleFor_ne_nil p.1, p, hp, rfl, by simp [hdesc, hgen]⟩
    · simp only [hdesc] at ho
      simp only [ne_eq, not_true_eq_false, if_false, hgen, not_false_eq_true,
        true_or, if_true] at ho
      rw [List.mem_singleton] at ho
      subst ho
      refine ⟨by simp [hgen], p, hp, rfl, ?_⟩
      simp [hdesc, hgen]
  · simp only [ne_eq, hdesc, not_false_eq_true, if_true, true_or] at ho
    rw [List.mem_singleton] at ho
    subst ho
    exact ⟨hdesc, p, hp, rfl, by simp [hdesc]⟩

/-- Witness for C10: a module with an empty generated description kept
through a submodule is emitted with the placeholder description. -/
theorem claim_c10_witness :
    (demoOutAuth ∈ formatOutput demoModsKept)
    ∧ demoOutAuth.description ≠ [] := by
  refine ⟨by decide, ?_⟩
  exact (claim_c10 demoModsKept demoOutAuth (by decide)).1

theorem generateDescription_nil (d : DescriptionSummarizer) :
    generateDescription d [] = [] := by
  simp [generateDescription]

theorem eq_of_mem_nodup_keys {α β : Type} [DecidableEq α] {l : List (α × β)}
    (h : (l.map Prod.fst).Nodup) {k : α} {a b : β}
    (ha : (k, a) ∈ l) (hb : (k, b) ∈ l) : a = b := by
  induction l with
  | nil => cases ha
  | cons p rest ih =>
    simp only [List.map_cons, List.nodup_cons] at h
    rcases List.mem_cons.1 ha with ha0 | ha1 <;>
      rcases List.mem_cons.1 hb with hb0 | hb1
    · exact congrArg Prod.snd (ha0.trans hb0.symm)
    · exfalso
      apply h.1
      rw [← ha0]
      exact List.mem_map.2 ⟨(k, b), hb1, rfl⟩
    · exfalso
      apply h.1
      rw [← hb0]
      exact List.mem_map.2 ⟨(k, a), ha1, rfl⟩
    · exact ih h.2 ha1 hb1

theorem step4_keys (pages : List ParsedPageModel) (mods : ModMap) :
    (generateDescriptionsStep pages mods).map Prod.fst = mods.map Prod.fst := by
  simp [generateDescriptionsStep, List.map_map]

/-- Structure of a step-4 entry: the attached description is the
summarizer output on the effective content (the stored content, or the
page fallback when that is empty), and the stored content is the
original one. -/
theorem step4_mem_structure {pages : List ParsedPageModel} {mods : ModMap}
    {name : Str} {data : ModDataDesc}
    (h : (name, data) ∈ generateDescriptionsStep pages mods) :
    ∃ md : ModData, (name, md) ∈ mods
      ∧ data.content = md.content
      ∧ data.description = generateDescription pipelineSummarizer
          (if md.content ≠ [] then md.content else findFallbackContent pages name) := by
  simp only [generateDescriptionsStep, List.mem_map] at h
  obtain ⟨p, hp, he⟩ := h
  injection he with h1 h2
  subst h1
  subst h2
  exact ⟨p.2, hp, rfl, rfl⟩

/-- If a step-4 entry's generated description is empty then so is the
summarizer's output on its stored content. -/
theorem step4_desc_empty {pages : List ParsedPageModel} {mods : ModMap}
    {name : Str} {data : ModDataDesc}
    (h : (name, data) ∈ generateDescriptionsStep pages mods)
    (hd : data.description = []) :
    generateDescription pipelineSummarizer data.content = [] := by
  obtain ⟨md, _, hc, hdesc⟩ := step4_mem_structure h
  by_cases hmc : md.content = []
  · rw [hc, hmc]
    exact generateDescription_nil _
  · rw [hdesc, if_pos hmc] at hd
    rw [hc]
    exact hd

/--
Claim C2.  A module appears in the pipeline's final output exactly when
its step-4 generated description is non-empty or at least one of its
submodules received a non-empty description; with distinct module names
(a Python dict guarantees this), membership of the name in the emitted
list is equivalent to that disjunction, so a module failing both — such
as one whose only content is a 10-character fragment, below the
summarizer's 20-character minimum, with no submodules — is dropped.
-/
theorem claim_c2 : ∀ (pages : List ParsedPageModel) (mods : ModMap),
    (mods.map Prod.fst).Nodup →
    ∀ name data, (name, data) ∈ generateDescriptionsStep pages mods →
      ((name ∈ (formatOutput (generateDescriptionsStep pages mods)).map
          OutputModule.module)
        ↔ (data.description ≠ [] ∨ ∃ q ∈ data.submodules, q.2 ≠ [])) := by
  intro pages mods hnodup name data hmem
  have hkeys : ((generateDescriptionsStep pages mods).map Prod.fst).Nodup := by
    rw [step4_keys]; exact hnodup
  constructor
  · intro hin
    obtain ⟨o, ho, hom⟩ := List.mem_map.1 hin
    simp only [formatOutput, List.mem_flatMap] at ho
    obtain ⟨p, hp, hoe⟩ := ho
    rw [List.mem_ite_nil_right] at hoe
    obtain ⟨hcond, hoe⟩ := hoe
    rw [List.mem_singleton] at hoe
    subst hoe
    simp only at hom
    have hpn : p = (name, p.2) := by rw [← hom]
    rw [hpn] at hp
    have hdata : p.2 = data := eq_of_mem_nodup_keys hkeys hp hmem
    rw [hdata] at hcond
    rcases hcond with hmd | hsub
    · by_cases hd : data.description = []
      · exfalso
        rw [if_neg (by simp [hd]), step4_desc_empty hmem hd] at hmd
        exact hmd rfl
      · exact Or.inl hd
    · right
      obtain ⟨q, hq⟩ := List.exists_mem_of_ne_nil _ hsub
      have := List.mem_filter.1 hq
      exact ⟨q, this.1, by simpa using this.2⟩
  · intro hcond
    apply List.mem_map.2
    refine ⟨⟨name,
        (if (if data.description ≠ [] then data.description
             else generateDescription pipelineSummarizer data.content) ≠ []
         then (if data.description ≠ [] then data.description
               else generateDescription pipelineSummarizer data.content)
         else "Module for ".toList ++ name),
        data.submodules.filter (fun q => q.2 ≠ [])⟩, ?_, rfl⟩
    simp only [formatOutput, List.mem_flatMap]
    refine ⟨(name, data), hmem, ?_⟩
    rw [List.mem_ite_nil_right]
    constructor
    · rcases hcond with hd | ⟨q, hq, hqd⟩
      · exact Or.inl (by simp [hd])
      · right
        exact List.ne_nil_of_mem (List.mem_filter.2 ⟨hq, by simpa using hqd⟩)
    · exact List.mem_singleton.2 rfl

/-- Witness for C2 (end-to-end scenario D): the module whose only
content is the 10-character fragment `0123456789` and which has no
submodules satisfies neither disjunct, and its name is absent from the
final output. -/
theorem claim_c2_witness :
    ((demoModsFragment.map Prod.fst).Nodup
      ∧ ("Widgets".toList,
          (⟨[], "0123456789".toList, "u".toList,
            generateDescription pipelineSummarizer "0123456789".toList⟩ : ModDataDesc))
        ∈ generateDescriptionsStep [] demoModsFragment)
    ∧ ("Widgets".toList ∈ (formatOutput
          (generateDescriptionsStep [] demoModsFragment)).map OutputModule.module
        ↔ ((⟨[], "0123456789".toList, "u".toList,
            generateDescription pipelineSummarizer "0123456789".toList⟩ :
              ModDataDesc).description ≠ []
          ∨ ∃ q ∈ (⟨[], "0123456789".toList, "u".toList,
              generateDescription pipelineSummarizer "0123456789".toList⟩ :
                ModDataDesc).submodules, q.2 ≠ []))
    ∧ "Widgets".toList ∉ (formatOutput
        (generateDescriptionsStep [] demoModsFragment)).map OutputModule.module := by
  refine ⟨⟨by decide, by decide⟩, ?_, by decide⟩
  exact claim_c2 [] demoModsFragment (by decide) "Widgets".toList _ (by decide)

/--
Claim C7.  `extract` never propagates an exception to the caller: for
every behaviour of the four stages (each modelled as a fallible
function), either the `try:` body succeeds and its result is returned,
or the body raises and `extract` returns an empty module list together
with the accumulated logs plus the two diagnostic `ERROR` entries (the
exception message and the traceback); `pipelineExtract` is a total
function either way.
-/
theorem claim_c7 : ∀ (crawlF : List Str → Except Str (List RawPage))
    (parseF : Str → Str → Except Str ParsedPageModel)
    (inferF : List ParsedPageModel → Except Str ModMap)
    (genF : Str → Except Str Str) (urls : List Str),
    (∃ r, extractBody crawlF parseF inferF genF urls = .ok r
      ∧ pipelineExtract crawlF parseF inferF genF urls = r)
    ∨ (∃ le, extractBody crawlF parseF inferF genF urls = .error le
      ∧ pipelineExtract crawlF parseF inferF genF urls =
          ⟨[], le.1 ++ [logEntry "ERROR".toList ("Pipeline error: ".toList ++ le.2),
            logEntry "ERROR".toList (tracebackText le.2)], none⟩
      ∧ (pipelineExtract crawlF parseF inferF genF urls).modules = []) := by
  intro crawlF parseF inferF genF urls
  cases h : extractBody crawlF parseF inferF genF urls with
  | ok r => exact Or.inl ⟨r, rfl, by simp [pipelineExtract, h]⟩
  | error le =>
    refine Or.inr ⟨le, rfl, by simp [pipelineExtract, h], ?_⟩
    simp [pipelineExtract, h]

theorem mem_insertScoredDesc {x y : Int × Str} {l : List (Int × Str)} :
    y ∈ insertScoredDesc x l ↔ y = x ∨ y ∈ l := by
  induction l with
  | nil => simp [insertScoredDesc]
  | cons z zs ih =>
    simp only [insertScoredDesc]
    split
    · simp only [List.mem_cons, ih]
      tauto
    · simp only [List.mem_cons]

theorem mem_stableSortScoredDesc {y : Int × Str} {l : List (Int × Str)} :
    y ∈ stableSortScoredDesc l ↔ y ∈ l := by
  induction l with
  | nil => simp [stableSortScoredDesc]
  | cons z zs ih =>
    simp only [stableSortScoredDesc, List.foldr_cons] at *
    rw [mem_insertScoredDesc, ih, List.mem_cons]

theorem selectedTexts_subset {d : DescriptionSummarizer} {sentences : List Str}
    {t : Str} (h : t ∈ selectedTexts d sentences) : t ∈ sentences := by
  simp only [selectedTexts, List.mem_map] at h
  obtain ⟨p, hp, ht⟩ := h
  have hp2 : p ∈ stableSortScoredDesc ((sentences.take 20).map
      (fun s => (scoreSentence s, s))) := (List.take_sublist _ _).mem hp
  rw [mem_stableSortScoredDesc] at hp2
  obtain ⟨s, hs, hps⟩ := List.mem_map.1 hp2
  rw [← ht, ← hps]
  exact (List.take_sublist _ _).mem hs

theorem selectedTexts_length_le (d : DescriptionSummarizer) (sentences : List Str) :
    (selectedTexts d sentences).length ≤ d.maxSentences := by
  simp only [selectedTexts, List.length_map, List.length_take]
  omega

theorem nodup_subset_length {l₁ l₂ : List Str} (h : l₁.Nodup)
    (hsub : ∀ x ∈ l₁, x ∈ l₂) : l₁.length ≤ l₂.length := by
  calc l₁.length = l₁.toFinset.card := (List.toFinset_card_of_nodup h).symm
    _ ≤ l₂.toFinset.card := Finset.card_le_card (fun x hx => by
        rw [List.mem_toFinset] at *
        exact hsub x hx)
    _ ≤ l₂.length := List.toFinset_card_le l₂

/-- The re-collection loop computes the membership filter whenever the
number of matches does not exceed the remaining budget (the break can
then only fire at the very last match). -/
theorem collectSel_eq_filter (sel : List Str) (maxS : Nat) :
    ∀ (l : List Str) (c : Nat),
      (l.filter (fun s => decide (s ∈ sel))).length + c ≤ maxS →
      collectSel sel maxS l c = l.filter (fun s => decide (s ∈ sel)) := by
  intro l
  induction l with
  | nil => intro c hc; rfl
  | cons x xs ih =>
    intro c hc
    by_cases hx : x ∈ sel
    · have hfil : (x :: xs).filter (fun s => decide (s ∈ sel))
          = x :: xs.filter (fun s => decide (s ∈ sel)) := by
        simp [List.filter_cons, hx]
      rw [hfil] at hc ⊢
      simp only [List.length_cons] at hc
      simp only [collectSel, if_pos hx]
      split
      · have hxs : xs.filter (fun s => decide (s ∈ sel)) = [] := by
          have : (xs.filter (fun s => decide (s ∈ sel))).length = 0 := by omega
          exact List.eq_nil_of_length_eq_zero this
        rw [hxs]
      · rw [ih (c + 1) (by omega)]
    · have hfil : (x :: xs).filter (fun s => decide (s ∈ sel))
          = xs.filter (fun s => decide (s ∈ sel)) := by
        simp [List.filter_cons, hx]
      rw [hfil] at hc ⊢
      simp only [collectSel, if_neg hx]
      exact ih c hc

/--
Counterexample to claim C6 as stated: with the duplicate-containing
candidate list `[x, x, x, a]` where `a` outscores `x`, the sentence `a`
is among the top-scoring `maxSentences = 3` texts, yet the returned list
is `[x, x, x]` — the re-collection loop matches the two selected copies
of `x` by text against all three occurrences and hits the length cap
before reaching `a` — so the result is not the selected set re-ordered
into document order.
-/
theorem claim_c6_counterexample :
    scoreSentence
        "This module provides many useful features for administrators overall.".toList
      > scoreSentence "the quick brown fox jumps here.".toList
    ∧ "This module provides many useful features for administrators overall.".toList
        ∈ selectedTexts {}
          ["the quick brown fox jumps here.".toList,
           "the quick brown fox jumps here.".toList,
           "the quick brown fox jumps here.".toList,
           "This module provides many useful features for administrators overall.".toList]
    ∧ selectSentences {}
        ["the quick brown fox jumps here.".toList,
         "the quick brown fox jumps here.".toList,
         "the quick brown fox jumps here.".toList,
         "This module provides many useful features for administrators overall.".toList]
      = ["the quick brown fox jumps here.".toList,
         "the quick brown fox jumps here.".toList,
         "the quick brown fox jumps here.".toList]
    ∧ "This module provides many useful features for administrators overall.".toList
        ∉ selectSentences {}
          ["the quick brown fox jumps here.".toList,
           "the quick brown fox jumps here.".toList,
           "the quick brown fox jumps here.".toList,
           "This module provides many useful features for administrators overall.".toList] := by
  refine ⟨by decide, by decide, by decide, by decide⟩

/--
Claim C6, amended.  For candidate lists of pairwise-distinct sentences,
`_select_sentences` scores only the first 20 candidates, selects the
top-scoring `maxSentences` of them under the stable score-descending
order (ties keep original order, as in `selectedTexts`), and returns
exactly those selected texts re-ordered into original document order —
the caller then joins them with single spaces.  (With duplicated
candidate texts the text-membership re-collection can deviate, see the
counterexample.)
-/
theorem claim_c6_amended (d : DescriptionSummarizer) (sentences : List Str)
    (hnd : sentences.Nodup) :
    selectSentences d sentences =
      sentences.filter (fun s => decide (s ∈ selectedTexts d sentences)) := by
  by_cases hnil : sentences = []
  · subst hnil
    rfl
  · have hbound : (sentences.filter
        (fun s => decide (s ∈ selectedTexts d sentences))).length + 0
          ≤ d.maxSentences := by
      have hnd2 : (sentences.filter
          (fun s => decide (s ∈ selectedTexts d sentences))).Nodup :=
        hnd.filter _
      have hsub : ∀ x ∈ sentences.filter
          (fun s => decide (s ∈ selectedTexts d sentences)),
          x ∈ selectedTexts d sentences := by
        intro x hx
        have := List.mem_filter.1 hx
        simpa using this.2
      have := nodup_subset_length hnd2 hsub
      have h2 := selectedTexts_length_le d sentences
      omega
    have hcoll := collectSel_eq_filter (selectedTexts d sentences)
      d.maxSentences sentences 0 hbound
    simp only [selectSentences, if_neg hnil]
    rw [hcoll]
    by_cases hmax : d.maxSentences = 0
    · have hsel : selectedTexts d sentences = [] := by
        simp [selectedTexts, hmax]
      simp [hsel, hmax, List.filter_eq_nil_iff]
    · have hne : sentences.filter
          (fun s => decide (s ∈ selectedTexts d sentences)) ≠ [] := by
        obtain ⟨x, xs, hx⟩ := List.exists_cons_of_ne_nil hnil
        have hsorted : stableSortScoredDesc ((sentences.take 20).map
            (fun s => (scoreSentence s, s))) ≠ [] := by
          intro hemp
          have hm : (scoreSentence x, x) ∈ stableSortScoredDesc
              ((sentences.take 20).map (fun s => (scoreSentence s, s))) := by
            rw [mem_stableSortScoredDesc]
            apply List.mem_map.2
            refine ⟨x, ?_, rfl⟩
            rw [hx]
            have h20 : (0 : Nat) < 20 := by omega
            simp [List.take_cons]
          rw [hemp] at hm
          cases hm
        have hselne : selectedTexts d sentences ≠ [] := by
          simp only [selectedTexts, ne_eq, List.map_eq_nil_iff,
            List.take_eq_nil_iff]
          push_neg
          exact ⟨hmax, hsorted⟩
        obtain ⟨t, ts, ht⟩ := List.exists_cons_of_ne_nil hselne
        have htin : t ∈ selectedTexts d sentences := by rw [ht]; simp
        have : t ∈ sentences.filter
            (fun s => decide (s ∈ selectedTexts d sentences)) :=
          List.mem_filter.2 ⟨selectedTexts_subset htin, by simpa using htin⟩
        exact List.ne_nil_of_mem this
      rw [if_neg hne]

/-- Witness for the amended C6 at a concrete distinct-sentence list. -/
theorem claim_c6_witness :
    demoSentences.Nodup
    ∧ selectSentences {} demoSentences =
        demoSentences.filter (fun s => decide (s ∈ selectedTexts {} demoSentences)) :=
  ⟨by decide, claim_c6_amended {} demoSentences (by decide)⟩

theorem noiseStep_isPre (s p : Str) : noiseStep s p <+: s := by
  unfold noiseStep
  cases findSubstrIdxCI p s with
  | none => exact List.prefix_rfl
  | some i => exact List.take_prefix i s

theorem foldl_noiseStep_isPre (pats : List Str) (s : Str) :
    pats.foldl noiseStep s <+: s := by
  induction pats generalizing s with
  | nil => exact List.prefix_rfl
  | cons q qs ih =>
    exact (ih (noiseStep s q)).trans (noiseStep_isPre s q)

theorem findSubstrIdx_isSome_iff (pat l : Str) :
    (findSubstrIdx pat l).isSome = true ↔ ∃ a b, l = a ++ pat ++ b := by
  induction l with
  | nil =>
    simp only [findSubstrIdx]
    constructor
    · intro h
      split at h
      · exact ⟨[], [], by simp_all⟩
      · cases h
    · rintro ⟨a, b, hab⟩
      have ha : a = [] ∧ pat = [] ∧ b = [] := by
        have := congrArg List.length hab
        simp at this
        refine ⟨?_, ?_, ?_⟩ <;> [exact List.eq_nil_of_length_eq_zero (by omega);
          exact List.eq_nil_of_length_eq_zero (by omega);
          exact List.eq_nil_of_length_eq_zero (by omega)]
      simp [ha.2.1]
  | cons c rest ih =>
    simp only [findSubstrIdx]
    split
    · rename_i hpre
      rw [List.isPrefixOf_iff_prefix] at hpre
      obtain ⟨t, ht⟩ := hpre
      exact ⟨fun _ => ⟨[], t, by simp [← ht]⟩, fun _ => rfl⟩
    · rename_i hpre
      have hmap : ∀ (o : Option Nat), (o.map (· + 1)).isSome = o.isSome :=
        fun o => by cases o <;> rfl
      rw [hmap]
      rw [ih]
      constructor
      · rintro ⟨a, b, rfl⟩
        exact ⟨c :: a, b, by simp⟩
      · rintro ⟨a, b, hab⟩
        cases a with
        | nil =>
          exfalso
          apply hpre
          rw [List.isPrefixOf_iff_prefix]
          simp only [List.nil_append] at hab
          exact ⟨b, hab.symm⟩
        | cons a0 as =>
          simp only [List.cons_append, List.cons.injEq] at hab
          exact ⟨as, b, hab.2⟩

/-- The prefix of a string before the leftmost occurrence of a non-empty
pattern contains no occurrence of the pattern. -/
theorem findSubstrIdx_take_leftmost {pat l : Str} {i : Nat} (hne : pat ≠ [])
    (h : findSubstrIdx pat l = some i) : findSubstrIdx pat (l.take i) = none := by
  induction l generalizing i with
  | nil =>
    simp only [findSubstrIdx] at h
    split at h
    · simp_all
    · cases h
  | cons c rest ih =>
    simp only [findSubstrIdx] at h
    split at h
    · cases h
      simp [findSubstrIdx, hne]
    · rename_i hpre
      rw [Option.map_eq_some'] at h
      obtain ⟨j, hj, rfl⟩ := h
      have hj' := ih hj
      simp only [List.take_succ_cons, findSubstrIdx]
      rw [if_neg, hj']
      · rfl
      · intro hpre2
        apply hpre
        rw [List.isPrefixOf_iff_prefix] at hpre2 ⊢
        exact hpre2.trans ((List.cons_prefix_cons).2 ⟨rfl, List.take_prefix j rest⟩)

/-- A string with no occurrence of a pattern has none in any prefix. -/
theorem containsSubstrCI_mono {t s p : Str} (hpre : t <+: s)
    (h : containsSubstrCI s p = false) : containsSubstrCI t p = false := by
  unfold containsSubstrCI findSubstrIdxCI at *
  rw [Bool.eq_false_iff] at h ⊢
  intro ht
  apply h
  rw [findSubstrIdx_isSome_iff] at ht ⊢
  obtain ⟨a, b, hab⟩ := ht
  obtain ⟨r, rfl⟩ := hpre
  exact ⟨a, b ++ pyLower r, by simp [pyLower] at hab ⊢; simp [hab]⟩

/-- After one noise substitution, the lead-in no longer occurs. -/
theorem noiseStep_no_occurrence {s p : Str} (hne : p ≠ []) :
    containsSubstrCI (noiseStep s p) p = false := by
  unfold noiseStep
  cases h : findSubstrIdxCI p s with
  | none =>
    unfold containsSubstrCI
    rw [h]
    rfl
  | some i =>
    unfold containsSubstrCI findSubstrIdxCI at *
    have hlow : pyLower (s.take i) = (pyLower s).take i := by
      simp [pyLower, List.map_take]
    rw [hlow]
    have hnep : pyLower p ≠ [] := by
      simp only [pyLower, ne_eq, List.map_eq_nil_iff]
      exact hne
    rw [findSubstrIdx_take_leftmost hnep h]
    rfl

/-- After the whole noise pass, none of the lead-ins occurs. -/
theorem foldl_noiseStep_no_occurrence :
    ∀ (pats : List Str) (s : Str), (∀ p ∈ pats, p ≠ []) →
      ∀ p ∈ pats, containsSubstrCI (pats.foldl noiseStep s) p = false := by
  intro pats
  induction pats with
  | nil => intro s _ p hp; cases hp
  | cons q qs ih =>
    intro s hnn p hp
    rcases List.mem_cons.1 hp with rfl | hp2
    · exact containsSubstrCI_mono
        (foldl_noiseStep_isPre qs (noiseStep s p))
        (noiseStep_no_occurrence (hnn p hp))
    · exact ih (noiseStep s q) (fun r hr => hnn r (List.mem_cons_of_mem q hr))
        p hp2

/--
Claim C8.  In `_clean_content`, each noise lead-in pattern is removed
together with everything its regex match covers: on the
whitespace-collapsed single-line text each pattern's `.*` extends the
leftmost match to the end of the string, so one substitution keeps
exactly the prefix before the leftmost case-insensitive occurrence
(conjunct 3), each step only ever shortens the text to a prefix
(conjunct 1), and after the pass none of the eight lead-ins occurs
anywhere in the text (conjunct 2); URLs and email-like tokens are then
stripped and the result trimmed (conjunct 4, the composition the source
performs).
-/
theorem claim_c8 : ∀ content : Str,
    ((noiseLeadIns.foldl noiseStep (pyStrip (collapseWs content))) <+:
        pyStrip (collapseWs content))
    ∧ (∀ p ∈ noiseLeadIns,
        containsSubstrCI
          (noiseLeadIns.foldl noiseStep (pyStrip (collapseWs content))) p = false)
    ∧ (∀ (s lit : Str) (i : Nat),
        findSubstrIdxCI lit s = some i → noiseStep s lit = s.take i)
    ∧ cleanContent content =
        pyStrip (stripEmails (stripUrls
          (noiseLeadIns.foldl noiseStep (pyStrip (collapseWs content))))) := by
  intro content
  refine ⟨foldl_noiseStep_isPre _ _, ?_, ?_, rfl⟩
  · exact foldl_noiseStep_no_occurrence noiseLeadIns _ (by decide)
  · intro s lit i h
    unfold noiseStep
    rw [h]

/-- Witness for C8 at a concrete input: the lead-in `Note:` occurs at
index 12 of the collapsed text, and the substitution keeps exactly the
first 12 characters. -/
theorem claim_c8_witness :
    (findSubstrIdxCI "Note:".toList "Alpha betas. Note: this goes away.".toList
        = some 13
      ∧ noiseStep "Alpha betas. Note: this goes away.".toList "Note:".toList
        = "Alpha betas. Note: this goes away.".toList.take 13)
    ∧ containsSubstrCI
        (noiseLeadIns.foldl noiseStep
          (pyStrip (collapseWs "Alpha betas. Note: this goes away.".toList)))
        "Note:".toList = false := by
  refine ⟨⟨by decide, ?_⟩, ?_⟩
  · exact (claim_c8 []).2.2.1 "Alpha betas. Note: this goes away.".toList
      "Note:".toList 13 (by decide)
  · exact (claim_c8 "Alpha betas. Note: this goes away.".toList).2.1
      "Note:".toList (by decide)

/-- Any page present after one crawl iteration was either already
fetched or was fetched in this iteration, at this depth, within the
depth bound, for exactly the popped URL, which passed the admission
filter. -/
theorem crawlStep_pages_cases (env : WebEnv) (cfg : CrawlCfg) (base url : Str)
    (depth : Nat) (rest : List (Str × Nat)) (visited : List Str)
    (pages : List (FetchedPage × Nat)) :
    ∀ pd ∈ (crawlStep env cfg base url depth rest visited pages).2.2,
      pd ∈ pages ∨ (pd.1.url = url ∧ pd.2 = depth ∧ depth ≤ cfg.maxDepth
        ∧ shouldCrawlUrl env cfg url base = true) := by
  intro pd hpd
  by_cases h1 : url ∈ visited
  · simp only [crawlStep, if_pos h1] at hpd
    exact Or.inl hpd
  by_cases h2 : cfg.maxDepth < depth
  · simp only [crawlStep, if_neg h1, if_pos h2] at hpd
    exact Or.inl hpd
  by_cases h3 : shouldCrawlUrl env cfg url base = true
  · cases hf : env.fetch url with
    | none =>
      simp only [crawlStep, if_neg h1, if_neg h2, h3, hf] at hpd
      simp at hpd
      exact Or.inl hpd
    | some fd =>
      simp only [crawlStep, if_neg h1, if_neg h2, h3, hf] at hpd
      simp only [Bool.not_true, Bool.false_eq_true, if_false] at hpd
      rcases List.mem_append.1 hpd with hl | hr
      · exact Or.inl hl
      · rw [List.mem_singleton] at hr
        subst hr
        exact Or.inr ⟨rfl, rfl, by omega, h3⟩
  · have h3' : (!shouldCrawlUrl env cfg url base) = true := by
      simp [Bool.not_eq_true] at h3
      simp [h3]
    simp only [crawlStep, if_neg h1, if_neg h2, h3', if_true] at hpd
    exact Or.inl hpd

/-- Everything in the queue after one crawl iteration either was already
queued or is a link enqueued at `depth + 1`, which only happens when
`depth < maxDepth`. -/
theorem crawlStep_queue_cases (env : WebEnv) (cfg : CrawlCfg) (base url : Str)
    (depth : Nat) (rest : List (Str × Nat)) (visited : List Str)
    (pages : List (FetchedPage × Nat)) :
    ∀ item ∈ (crawlStep env cfg base url depth rest visited pages).1,
      item ∈ rest ∨ (item.2 = depth + 1 ∧ depth < cfg.maxDepth) := by
  intro item hitem
  by_cases h1 : url ∈ visited
  · simp only [crawlStep, if_pos h1] at hitem
    exact Or.inl hitem
  by_cases h2 : cfg.maxDepth < depth
  · simp only [crawlStep, if_neg h1, if_pos h2] at hitem
    exact Or.inl hitem
  by_cases h3 : shouldCrawlUrl env cfg url base = true
  · cases hf : env.fetch url with
    | none =>
      simp only [crawlStep, if_neg h1, if_neg h2, h3, hf] at hitem
      simp at hitem
      exact Or.inl hitem
    | some fd =>
      simp only [crawlStep, if_neg h1, if_neg h2, h3, hf] at hitem
      simp only [Bool.not_true, Bool.false_eq_true, if_false] at hitem
      by_cases hdep : depth < cfg.maxDepth
      · rw [if_pos hdep] at hitem
        rcases List.mem_append.1 hitem with hl | hr
        · exact Or.inl hl
        · obtain ⟨l, hlmem, hle⟩ := List.mem_map.1 hr
          exact Or.inr ⟨by rw [← hle], hdep⟩
      · rw [if_neg hdep] at hitem
        exact Or.inl hitem
  · have h3' : (!shouldCrawlUrl env cfg url base) = true := by
      simp [Bool.not_eq_true] at h3
      simp [h3]
    simp only [crawlStep, if_neg h1, if_neg h2, h3', if_true] at hitem
    exact Or.inl hitem

/-- A page popped at exactly `maxDepth` is never expanded: the queue
after its iteration is exactly the remaining queue. -/
theorem crawlStep_no_expand (env : WebEnv) (cfg : CrawlCfg) (base url : Str)
    (rest : List (Str × Nat)) (visited : List Str)
    (pages : List (FetchedPage × Nat)) :
    (crawlStep env cfg base url cfg.maxDepth rest visited pages).1 = rest := by
  by_cases h1 : url ∈ visited
  · simp only [crawlStep, if_pos h1]
  by_cases h2 : cfg.maxDepth < cfg.maxDepth
  · omega
  by_cases h3 : shouldCrawlUrl env cfg url base = true
  · cases hf : env.fetch url with
    | none => simp [crawlStep, h1, h2, h3, hf]
    | some fd => simp [crawlStep, h1, h2, h3, hf]
  · have h3' : (!shouldCrawlUrl env cfg url base) = true := by
      simp [Bool.not_eq_true] at h3
      simp [h3]
    simp only [crawlStep, if_neg h1, if_neg h2, h3', if_true]

/-- Induction principle for the crawl loop: any property of fetched
pages preserved by one iteration holds for everything the loop
returns. -/
theorem crawlLoop_invariant (env : WebEnv) (cfg : CrawlCfg) (base : Str)
    {P : FetchedPage × Nat → Prop}
    (hP : ∀ url depth rest visited pages pd, (∀ q ∈ pages, P q) →
        pd ∈ (crawlStep env cfg base url depth rest visited pages).2.2 → P pd) :
    ∀ (fuel : Nat) (queue : List (Str × Nat)) (visited : List Str)
      (pages : List (FetchedPage × Nat)), (∀ q ∈ pages, P q) →
      ∀ pd ∈ crawlLoop env cfg base fuel queue visited pages, P pd := by
  intro fuel
  induction fuel with
  | zero => exact fun queue visited pages hinv pd hpd => hinv pd hpd
  | succ f ih =>
    intro queue visited pages hinv pd hpd
    cases queue with
    | nil => exact hinv pd hpd
    | cons qd rest =>
      obtain ⟨url, depth⟩ := qd
      simp only [crawlLoop] at hpd
      split at hpd
      · exact hinv pd hpd
      · exact ih _ _ _
          (fun q hq => hP url depth rest visited pages q hinv hq) pd hpd

/--
Claim C4.  For every crawl, a page is fetched only at depth at most
`maxDepth` (conjunct 1: every fetched page's recorded depth is within
the bound); links discovered on a page at depth `d` are enqueued at
depth `d + 1` and only when `d < maxDepth` (conjunct 2); and a page
popped at exactly `maxDepth` is fetched but never expanded — its
iteration leaves the queue exactly as it was (conjunct 3).
-/
theorem claim_c4 : ∀ (env : WebEnv) (cfg : CrawlCfg),
    (∀ (fuel : Nat) (seeds : List Str) pd,
        pd ∈ (crawl env cfg fuel seeds).pages → pd.2 ≤ cfg.maxDepth)
    ∧ (∀ (base url : Str) (depth : Nat) rest visited pages item,
        item ∈ (crawlStep env cfg base url depth rest visited pages).1 →
          item ∈ rest ∨ (item.2 = depth + 1 ∧ depth < cfg.maxDepth))
    ∧ (∀ (base url : Str) rest visited pages,
        (crawlStep env cfg base url cfg.maxDepth rest visited pages).1 = rest) := by
  intro env cfg
  refine ⟨?_, crawlStep_queue_cases env cfg, crawlStep_no_expand env cfg⟩
  intro fuel seeds pd hpd
  unfold crawl at hpd
  revert hpd
  cases hs : seeds.map normalizeUrl with
  | nil => intro hpd; cases hpd
  | cons s0 srest =>
    intro hpd
    simp only at hpd
    refine crawlLoop_invariant env cfg (getDomain s0)
      (P := fun pd => pd.2 ≤ cfg.maxDepth) ?_ fuel _ [] [] (by simp) pd hpd
    intro url depth rest visited pages q hinv hq
    rcases crawlStep_pages_cases env cfg (getDomain s0) url depth rest visited
      pages q hq with hold | ⟨_, hdep, hle, _⟩
    · exact hinv q hold
    · rw [hdep]
      exact hle

/-- Witness for C4: a two-seed crawl in the one-page demo environment
fetches the page at depth 0 ≤ 1; a step at depth 0 enqueues the
discovered link at depth 1 (conjunct 2 instantiated); and a step at
depth `maxDepth = 1` leaves the queue untouched. -/
theorem claim_c4_witness :
    ((⟨"https://a.com/".toList, "<html>".toList, 200, "text/html".toList⟩,
        (0 : Nat)) ∈ (crawl demoEnv demoCfg 5 ["https://a.com/".toList]).pages
      ∧ (0 : Nat) ≤ demoCfg.maxDepth)
    ∧ (("https://a.com/docs".toList, (1 : Nat)) ∈
          (crawlStep demoEnv demoCfg "a.com".toList "https://a.com/".toList 0
            [] [] []).1
      ∧ (("https://a.com/docs".toList, (1 : Nat)) ∈ ([] : List (Str × Nat))
          ∨ ((1 : Nat) = 0 + 1 ∧ 0 < demoCfg.maxDepth)))
    ∧ (crawlStep demoEnv demoCfg "a.com".toList "https://a.com/x".toList
        demoCfg.maxDepth [] [] []).1 = [] := by
  refine ⟨⟨by decide, ?_⟩, ⟨by decide, ?_⟩, ?_⟩
  · exact (claim_c4 demoEnv demoCfg).1 5 ["https://a.com/".toList]
      (⟨"https://a.com/".toList, "<html>".toList, 200, "text/html".toList⟩, 0)
      (by decide)
  · exact (claim_c4 demoEnv demoCfg).2.1 "a.com".toList "https://a.com/".toList 0
      [] [] [] ("https://a.com/docs".toList, 1) (by decide)
  · exact (claim_c4 demoEnv demoCfg).2.2 "a.com".toList "https://a.com/x".toList
      [] [] []

/-!
### Lemmas towards `getDomain_normalizeUrl`
-/

theorem uint32_le_iff_toNat_le {a b : UInt32} : a ≤ b ↔ a.toNat ≤ b.toNat := by
  rw [UInt32.le_def, BitVec.le_def]
  rfl

theorem char_isUpper_iff {c : Char} :
    c.isUpper = true ↔ 65 ≤ c.toNat ∧ c.toNat ≤ 90 := by
  simp only [Char.isUpper, Bool.and_eq_true, decide_eq_true_eq]
  constructor
  · rintro ⟨h1, h2⟩
    exact ⟨(uint32_le_iff_toNat_le (a := 65) (b := c.val)).1 h1,
      (uint32_le_iff_toNat_le (a := c.val) (b := 90)).1 h2⟩
  · rintro ⟨h1, h2⟩
    exact ⟨(uint32_le_iff_toNat_le (a := 65) (b := c.val)).2 h1,
      (uint32_le_iff_toNat_le (a := c.val) (b := 90)).2 h2⟩

theorem char_isLower_iff {c : Char} :
    c.isLower = true ↔ 97 ≤ c.toNat ∧ c.toNat ≤ 122 := by
  simp only [Char.isLower, Bool.and_eq_true, decide_eq_true_eq]
  constructor
  · rintro ⟨h1, h2⟩
    exact ⟨(uint32_le_iff_toNat_le (a := 97) (b := c.val)).1 h1,
      (uint32_le_iff_toNat_le (a := c.val) (b := 122)).1 h2⟩
  · rintro ⟨h1, h2⟩
    exact ⟨(uint32_le_iff_toNat_le (a := 97) (b := c.val)).2 h1,
      (uint32_le_iff_toNat_le (a := c.val) (b := 122)).2 h2⟩

theorem char_ofNat_toNat_of_lt {n : Nat} (h : n < 0xd800) :
    (Char.ofNat n).toNat = n := by
  have hv : n.isValidChar := Or.inl h
  simp only [Char.ofNat, dif_pos hv, Char.ofNatAux, Char.toNat, UInt32.toNat]
  simp [BitVec.toNat_ofNat, Nat.mod_eq_of_lt (by omega : n < 2 ^ 32)]

theorem toLower_of_upper {c : Char} (h : c.isUpper = true) :
    (Char.toLower c).toNat = c.toNat + 32 := by
  rw [char_isUpper_iff] at h
  simp only [Char.toLower, if_pos (by omega : c.toNat ≥ 65 ∧ c.toNat ≤ 90)]
  exact char_ofNat_toNat_of_lt (by omega)

theorem toLower_of_not_upper {c : Char} (h : ¬ c.isUpper = true) :
    Char.toLower c = c := by
  rw [char_isUpper_iff] at h
  simp only [Char.toLower]
  rw [if_neg (by omega)]

theorem char_isAlpha_toLower {c : Char} (h : c.isAlpha = true) :
    (Char.toLower c).isAlpha = true := by
  by_cases hu : c.isUpper = true
  · have h1 := toLower_of_upper hu
    rw [char_isUpper_iff] at hu
    simp only [Char.isAlpha, Bool.or_eq_true]
    right
    rw [char_isLower_iff, h1]
    omega
  · rw [toLower_of_not_upper hu]
    exact h

theorem isSchemeTailChar_toLower {c : Char} (h : isSchemeTailChar c = true) :
    isSchemeTailChar (Char.toLower c) = true := by
  by_cases hu : c.isUpper = true
  · have ha : (Char.toLower c).isAlpha = true :=
      char_isAlpha_toLower (by simp [Char.isAlpha, hu])
    simp [isSchemeTailChar, ha]
  · rw [toLower_of_not_upper hu]
    exact h

theorem validScheme_pyLower {s : Str} (h : validScheme s = true) :
    validScheme (pyLower s) = true := by
  cases s with
  | nil => cases h
  | cons c rest =>
    simp only [validScheme, Bool.and_eq_true, List.all_eq_true] at h
    simp only [pyLower, List.map_cons, validScheme, Bool.and_eq_true,
      List.all_eq_true]
    refine ⟨char_isAlpha_toLower h.1, ?_⟩
    intro x hx
    rw [List.mem_map] at hx
    obtain ⟨y, hy, rfl⟩ := hx
    exact isSchemeTailChar_toLower (h.2 y hy)

/-- A character that is neither a letter nor a scheme-tail character
cannot occur in a valid scheme. -/
theorem validScheme_not_mem {s : Str} {ch : Char} (h : validScheme s = true)
    (hch : ch.isAlpha = false ∧ isSchemeTailChar ch = false) : ch ∉ s := by
  cases s with
  | nil => simp
  | cons c rest =>
    simp only [validScheme, Bool.and_eq_true, List.all_eq_true] at h
    simp only [List.mem_cons, not_or]
    constructor
    · intro he
      subst he
      rw [h.1] at hch
      exact absurd hch.1 (by simp)
    · intro he
      have := h.2 ch he
      rw [this] at hch
      exact absurd hch.2 (by simp)

theorem splitFirst_none_iff {sep : Char} {s : Str} :
    splitFirst sep s = none ↔ sep ∉ s := by
  induction s with
  | nil => simp [splitFirst]
  | cons c rest ih =>
    simp only [splitFirst]
    split
    · rename_i h
      subst h
      simp
    · rename_i h
      rw [Option.map_eq_none', ih]
      simp only [List.mem_cons, not_or]
      constructor
      · exact fun hn => ⟨fun he => h he.symm, hn⟩
      · exact fun hn => hn.2

theorem splitFirst_eq {sep : Char} {s a b : Str}
    (h : splitFirst sep s = some (a, b)) : s = a ++ sep :: b ∧ sep ∉ a := by
  induction s generalizing a with
  | nil => cases h
  | cons c rest ih =>
    simp only [splitFirst] at h
    split at h
    · rename_i hc
      subst hc
      cases h
      simp
    · rename_i hc
      rw [Option.map_eq_some'] at h
      obtain ⟨⟨a', b'⟩, hsp, he⟩ := h
      cases he
      obtain ⟨h1, h2⟩ := ih hsp
      constructor
      · simp [h1]
      · simp only [List.mem_cons, not_or]
        exact ⟨fun he => hc he.symm, h2⟩

theorem splitFirst_decomp {sep : Char} {a : Str} (b : Str) (ha : sep ∉ a) :
    splitFirst sep (a ++ sep :: b) = some (a, b) := by
  induction a with
  | nil => simp [splitFirst]
  | cons c cs ih =>
    simp only [List.mem_cons, not_or] at ha
    simp only [List.cons_append, splitFirst, List.append_eq]
    rw [ih ha.2, if_neg (fun h => ha.1 (Eq.symm h))]
    rfl

theorem rstripSlash_decomp (s : Str) :
    ∃ t, s = rstripSlash s ++ t ∧ ∀ c ∈ t, c = '/' := by
  refine ⟨(s.reverse.takeWhile (fun c => decide (c = '/'))).reverse, ?_, ?_⟩
  · conv_lhs => rw [← List.reverse_reverse s,
      ← List.takeWhile_append_dropWhile (fun c => decide (c = '/')) s.reverse]
    rw [List.reverse_append]
    rfl
  · intro c hc
    rw [List.mem_reverse] at hc
    have := List.mem_takeWhile_imp hc
    simpa using this

theorem rstripSlash_isPre (s : Str) : rstripSlash s <+: s := by
  obtain ⟨t, ht, _⟩ := rstripSlash_decomp s
  exact ⟨t, ht.symm⟩

theorem fragSplit_fst_not_mem (u : Str) : '#' ∉ (fragSplit u).1 := by
  unfold fragSplit
  cases hs : splitFirst '#' u with
  | none => exact splitFirst_none_iff.1 hs
  | some p =>
    obtain ⟨p1, p2⟩ := p
    exact (splitFirst_eq hs).2

theorem splitScheme_cases (r : Str) :
    (splitScheme r = ([], r)
      ∧ ∀ a b, splitFirst ':' r = some (a, b) → validScheme a = false)
    ∨ (∃ pre post, splitFirst ':' r = some (pre, post) ∧ validScheme pre = true
        ∧ splitScheme r = (pyLower pre, post)) := by
  unfold splitScheme
  cases hs : splitFirst ':' r with
  | none =>
    refine Or.inl ⟨rfl, fun a b hab => ?_⟩
    cases hab
  | some p =>
    obtain ⟨pre, post⟩ := p
    by_cases hv : validScheme pre = true
    · refine Or.inr ⟨pre, post, rfl, hv, ?_⟩
      dsimp only
      rw [if_pos hv]
    · refine Or.inl ⟨by dsimp only; rw [if_neg hv], ?_⟩
      intro a b hab
      cases hab
      exact Bool.eq_false_iff.mpr hv

theorem splitNetloc_cases (r : Str) :
    (¬ (r.take 2 = ['/', '/']) ∧ splitNetloc r = ([], r))
    ∨ (r.take 2 = ['/', '/']
        ∧ splitNetloc r = ((r.drop 2).takeWhile (fun c => !isNetlocEnd c),
            (r.drop 2).dropWhile (fun c => !isNetlocEnd c))) := by
  unfold splitNetloc
  by_cases h : r.take 2 = ['/', '/']
  · exact Or.inr ⟨h, by rw [if_pos h]⟩
  · exact Or.inl ⟨h, by rw [if_neg h]⟩

theorem splitQuery_cases (r : Str) :
    (splitQuery r = (r, []) ∧ '?' ∉ r)
    ∨ (r = (splitQuery r).1 ++ '?' :: (splitQuery r).2 ∧ '?' ∉ (splitQuery r).1) := by
  unfold splitQuery
  cases hs : splitFirst '?' r with
  | none => exact Or.inl ⟨rfl, splitFirst_none_iff.1 hs⟩
  | some p =>
    obtain ⟨a, b⟩ := p
    obtain ⟨h1, h2⟩ := splitFirst_eq hs
    exact Or.inr ⟨h1, h2⟩

theorem takeWhile_eq_self_of_all {p : Char → Bool} {l : Str}
    (h : ∀ c ∈ l, p c = true) : l.takeWhile p = l := by
  induction l with
  | nil => rfl
  | cons c rest ih =>
    rw [List.takeWhile_cons, if_pos (h c (by simp))]
    rw [ih (fun d hd => h d (by simp [hd]))]

theorem dropWhile_eq_nil_of_all {p : Char → Bool} {l : Str}
    (h : ∀ c ∈ l, p c = true) : l.dropWhile p = [] := by
  induction l with
  | nil => rfl
  | cons c rest ih =>
    rw [List.dropWhile_cons, if_pos (h c (by simp))]
    exact ih (fun d hd => h d (by simp [hd]))

/-- Re-parsing a `//netloc` + absolute-path reconstruction returns the
netloc intact. -/
theorem splitNetloc_reconstruct {nl tail : Str}
    (hnl : ∀ c ∈ nl, isNetlocEnd c = false)
    (htail : tail = [] ∨ tail.head? = some '/' ∨ tail.head? = some '?') :
    splitNetloc (['/', '/'] ++ nl ++ tail) = (nl, tail) := by
  have htake : (['/', '/'] ++ nl ++ tail).take 2 = ['/', '/'] := rfl
  have hdrop : (['/', '/'] ++ nl ++ tail).drop 2 = nl ++ tail := rfl
  unfold splitNetloc
  rw [if_pos htake, hdrop]
  have hnl2 : ∀ c ∈ nl, (!isNetlocEnd c) = true := fun c hc => by
    rw [hnl c hc]; rfl
  have htw : (nl ++ tail).takeWhile (fun c => !isNetlocEnd c) = nl := by
    rw [List.takeWhile_append, if_pos (by rw [takeWhile_eq_self_of_all hnl2])]
    rcases htail with rfl | ht | ht
    · simp
    · cases tail with
      | nil => simp
      | cons t ts =>
        simp only [List.head?_cons, Option.some.injEq] at ht
        subst ht
        simp [List.takeWhile_cons, isNetlocEnd]
    · cases tail with
      | nil => simp
      | cons t ts =>
        simp only [List.head?_cons, Option.some.injEq] at ht
        subst ht
        simp [List.takeWhile_cons, isNetlocEnd]
  have hdw : (nl ++ tail).dropWhile (fun c => !isNetlocEnd c) = tail := by
    rw [List.dropWhile_append]
    rw [dropWhile_eq_nil_of_all hnl2]
    simp only [List.isEmpty_nil, if_true]
    rcases htail with rfl | ht | ht
    · rfl
    · cases tail with
      | nil => rfl
      | cons t ts =>
        simp only [List.head?_cons, Option.some.injEq] at ht
        subst ht
        simp [List.dropWhile_cons, isNetlocEnd]
    · cases tail with
      | nil => rfl
      | cons t ts =>
        simp only [List.head?_cons, Option.some.injEq] at ht
        subst ht
        simp [List.dropWhile_cons, isNetlocEnd]
  rw [htw, hdw]

/-- Re-parsing `scheme:rest` finds the same split again. -/
theorem splitScheme_reconstruct {sch url2 : Str} (hv : validScheme sch = true) :
    splitScheme (sch ++ ':' :: url2) = (pyLower sch, url2) := by
  have hcol : ':' ∉ sch := validScheme_not_mem hv (by decide)
  unfold splitScheme
  rw [splitFirst_decomp url2 hcol]
  dsimp only
  rw [if_pos hv]

theorem splitScheme_of_invalid {w : Str}
    (h : ∀ a b, splitFirst ':' w = some (a, b) → validScheme a = false) :
    splitScheme w = ([], w) := by
  unfold splitScheme
  cases hs : splitFirst ':' w with
  | none => rfl
  | some p =>
    obtain ⟨a, b⟩ := p
    dsimp only
    rw [if_neg (by rw [h a b hs]; simp)]

theorem validScheme_false_of_mem {a : Str} {ch : Char}
    (hch : ch.isAlpha = false ∧ isSchemeTailChar ch = false) (hmem : ch ∈ a) :
    validScheme a = false := by
  cases hv : validScheme a with
  | false => rfl
  | true => exact absurd hmem (validScheme_not_mem hv hch)

theorem take_two_ne_slashes {x : Str} (hx : x ≠ [])
    (h : ¬ (x.take 2 = ['/', '/'])) (opt : Str)
    (hopt : opt = [] ∨ opt.head? = some '?') :
    ¬ ((x ++ opt).take 2 = ['/', '/']) := by
  cases x with
  | nil => exact absurd rfl hx
  | cons c1 xs =>
    cases xs with
    | nil =>
      rcases hopt with rfl | hh
      · simp
      · cases opt with
        | nil => simp
        | cons o os =>
          simp only [List.head?_cons, Option.some.injEq] at hh
          subst hh
          intro hc
          simp at hc
    | cons c2 xs2 =>
      intro hc
      apply h
      simpa using hc

theorem splitScheme_snd_subset {r : Str} : ∀ c ∈ (splitScheme r).2, c ∈ r := by
  rcases splitScheme_cases r with ⟨h, _⟩ | ⟨pre, post, hsp, hv, h⟩
  · rw [h]
    exact fun c hc => hc
  · rw [h]
    intro c hc
    rw [(splitFirst_eq hsp).1]
    simp [hc]

theorem splitNetloc_fst_subset {r : Str} : ∀ c ∈ (splitNetloc r).1, c ∈ r := by
  rcases splitNetloc_cases r with ⟨_, h⟩ | ⟨_, h⟩
  · rw [h]
    intro c hc
    cases hc
  · rw [h]
    intro c hc
    exact (List.drop_sublist 2 r).mem ((List.takeWhile_sublist _).mem hc)

theorem splitNetloc_snd_subset {r : Str} : ∀ c ∈ (splitNetloc r).2, c ∈ r := by
  rcases splitNetloc_cases r with ⟨_, h⟩ | ⟨_, h⟩
  · rw [h]
    exact fun c hc => hc
  · rw [h]
    intro c hc
    exact (List.drop_sublist 2 r).mem ((List.dropWhile_sublist _).mem hc)

theorem splitQuery_fst_subset {r : Str} : ∀ c ∈ (splitQuery r).1, c ∈ r := by
  rcases splitQuery_cases r with ⟨h, _⟩ | ⟨h, _⟩
  · rw [h]
    exact fun c hc => hc
  · intro c hc
    rw [h]
    simp [hc]

theorem splitQuery_snd_subset {r : Str} : ∀ c ∈ (splitQuery r).2, c ∈ r := by
  rcases splitQuery_cases r with ⟨h, _⟩ | ⟨h, _⟩
  · rw [h]
    intro c hc
    cases hc
  · intro c hc
    rw [h]
    simp [hc]

theorem splitQuery_fst_isPre (r : Str) : (splitQuery r).1 <+: r := by
  rcases splitQuery_cases r with ⟨h, _⟩ | ⟨h, _⟩
  · rw [h]
  · exact ⟨'?' :: (splitQuery r).2, h.symm⟩

theorem splitNetloc_fst_no_end {r : Str} :
    ∀ c ∈ (splitNetloc r).1, isNetlocEnd c = false := by
  rcases splitNetloc_cases r with ⟨_, h⟩ | ⟨_, h⟩
  · rw [h]
    intro c hc
    cases hc
  · rw [h]
    intro c hc
    have := List.mem_takeWhile_imp hc
    simpa using this

/-- If a list containing `sep` is a prefix of `w = a ++ sep :: b` with
`sep ∉ a`, the same split prefix `a` occurs inside it. -/
theorem firstSep_in_prefix {x w a b : Str} {sep : Char}
    (hxw : x <+: w) (hsep : sep ∈ x) (hw : w = a ++ sep :: b) (ha : sep ∉ a) :
    ∃ b', x = a ++ sep :: b' := by
  have hax : (a ++ [sep]) <+: w := by
    rw [hw]
    exact ⟨b, by simp⟩
  rcases List.prefix_or_prefix_of_prefix hax hxw with h1 | h1
  · obtain ⟨t, ht⟩ := h1
    exact ⟨t, by rw [← ht]; simp⟩
  · have haw : a <+: w := by
      rw [hw]
      exact ⟨sep :: b, rfl⟩
    rcases List.prefix_or_prefix_of_prefix hxw haw with h2 | h2
    · exact absurd (h2.sublist.mem hsep) ha
    · have l1 := h1.length_le
      have l2 := h2.length_le
      simp only [List.length_append, List.length_cons, List.length_nil] at l1
      by_cases hxa : x.length = a.length + 1
      · have hx := h1.eq_of_length (by simp [hxa])
        exact ⟨[], by rw [hx]⟩
      · have hxa2 : a.length = x.length := by omega
        have hax2 := h2.eq_of_length hxa2
        rw [← hax2] at hsep
        exact absurd hsep ha

theorem urlparse_eq (u : Str) :
    urlparse u =
      ⟨(splitScheme (fragSplit u).1).1,
       (splitNetloc (splitScheme (fragSplit u).1).2).1,
       (splitQuery (splitNetloc (splitScheme (fragSplit u).1).2).2).1,
       (splitQuery (splitNetloc (splitScheme (fragSplit u).1).2).2).2,
       (fragSplit u).2⟩ := rfl

theorem getDomain_eq (u : Str) :
    getDomain u = (splitNetloc (splitScheme (fragSplit u).1).2).1 := rfl

theorem normalizeUrl_eq (u : Str) :
    normalizeUrl u = urlunparse (urlparse u).scheme (urlparse u).netloc
      (if rstripSlash (urlparse u).path = [] then ['/']
       else rstripSlash (urlparse u).path)
      (urlparse u).query [] := rfl

theorem urlunparse_no_frag (scheme netloc path query : Str) :
    urlunparse scheme netloc path query [] =
      (if scheme ≠ [] then scheme ++ ':' :: urlunparseCore netloc path
       else urlunparseCore netloc path)
      ++ (if query = [] then [] else '?' :: query) := by
  unfold urlunparse
  by_cases hs : scheme = [] <;> by_cases hq : query = [] <;>
    simp [hs, hq]

theorem urlunparseCore_pos {netloc path : Str}
    (h : netloc ≠ [] ∨ path.take 2 = ['/', '/']) :
    urlunparseCore netloc path =
      ['/', '/'] ++ netloc ++
        (if path ≠ [] ∧ path.head? ≠ some '/' then '/' :: path else path) := by
  unfold urlunparseCore
  rw [if_pos h]

theorem urlunparseCore_neg {netloc path : Str}
    (h : ¬ (netloc ≠ [] ∨ path.take 2 = ['/', '/'])) :
    urlunparseCore netloc path = path := by
  unfold urlunparseCore
  rw [if_neg h]

theorem fragSplit_of_not_mem {w : Str} (h : '#' ∉ w) : fragSplit w = (w, []) := by
  unfold fragSplit
  cases hs : splitFirst '#' w with
  | none => rfl
  | some p =>
    obtain ⟨a, b⟩ := p
    exact absurd (by rw [(splitFirst_eq hs).1]; simp) h

theorem head?_append_left {p t : Str} (h : p ≠ []) :
    (p ++ t).head? = p.head? := by
  cases p with
  | nil => exact absurd rfl h
  | cons c cs => rfl

theorem isPre_head? {l r : Str} (hp : l <+: r) (hne : l ≠ []) :
    r.head? = l.head? := by
  obtain ⟨t, rfl⟩ := hp
  exact head?_append_left hne

theorem splitScheme_head_slash {w : Str} (h : w.head? = some '/') :
    splitScheme w = ([], w) := by
  apply splitScheme_of_invalid
  intro a b hs
  obtain ⟨hw, -⟩ := splitFirst_eq hs
  cases a with
  | nil => rfl
  | cons c cs =>
    rw [hw] at h
    simp only [List.cons_append, List.head?_cons, Option.some.injEq] at h
    subst h
    have hna : ('/').isAlpha = false := by decide
    simp [validScheme, hna]

theorem splitScheme_fst_not_mem {r : Str} {ch : Char}
    (hch : ch.isAlpha = false ∧ isSchemeTailChar ch = false) :
    ch ∉ (splitScheme r).1 := by
  rcases splitScheme_cases r with ⟨h, _⟩ | ⟨pre, post, hsp, hv, h⟩
  · rw [h]
    simp
  · rw [h]
    exact validScheme_not_mem (validScheme_pyLower hv) hch

theorem splitScheme_suffix_invalid {r0 pa opt : Str}
    (hp : pa <+: r0)
    (hinv : ∀ a b, splitFirst ':' r0 = some (a, b) → validScheme a = false)
    (hopt : opt = [] ∨ ∃ t, opt = '?' :: t) :
    splitScheme (pa ++ opt) = ([], pa ++ opt) := by
  apply splitScheme_of_invalid
  intro a b hs
  obtain ⟨hw, ha⟩ := splitFirst_eq hs
  by_cases hc : ':' ∈ pa
  · obtain ⟨b', hb'⟩ := firstSep_in_prefix (⟨opt, rfl⟩ : pa <+: pa ++ opt) hc hw ha
    obtain ⟨t, ht⟩ := hp
    have hfind : splitFirst ':' r0 = some (a, b' ++ t) := by
      have hassoc : (a ++ ':' :: b') ++ t = a ++ ':' :: (b' ++ t) := by simp
      rw [← ht, hb', hassoc]
      exact splitFirst_decomp _ ha
    exact hinv a _ hfind
  · rcases hopt with rfl | ⟨t, rfl⟩
    · rw [List.append_nil] at hw
      exact absurd (show ':' ∈ pa by rw [hw]; simp) hc
    · rcases List.prefix_or_prefix_of_prefix
        (⟨':' :: b, hw.symm⟩ : a <+: pa ++ '?' :: t)
        (⟨'?' :: t, rfl⟩ : pa <+: pa ++ '?' :: t) with h1 | h1
      · obtain ⟨s, hs2⟩ := h1
        cases s with
        | nil =>
          rw [List.append_nil] at hs2
          subst hs2
          have hcan := List.append_cancel_left hw
          injection hcan with hc1 hc2
          exact absurd hc1 (by decide)
        | cons c s' =>
          rw [← hs2, List.append_assoc] at hw
          have hcan := List.append_cancel_left hw
          simp only [List.cons_append] at hcan
          injection hcan with hc1 hc2
          subst hc1
          exact absurd (show ':' ∈ pa by rw [← hs2]; simp) hc
      · obtain ⟨s, hs2⟩ := h1
        rw [← hs2, List.append_assoc] at hw
        have hcan := List.append_cancel_left hw
        cases s with
        | nil =>
          simp only [List.nil_append] at hcan
          injection hcan with hc1 hc2
          exact absurd hc1 (by decide)
        | cons c s' =>
          simp only [List.cons_append] at hcan
          injection hcan with hc1 hc2
          exact validScheme_false_of_mem (by decide)
            (show ('?' : Char) ∈ a by rw [← hs2, hc1]; simp)

theorem mem_of_head?_eq {l : Str} {c : Char} (h : l.head? = some c) : c ∈ l := by
  cases l with
  | nil => cases h
  | cons d ds =>
    simp only [List.head?_cons, Option.some.injEq] at h
    rw [← h]
    exact List.mem_cons_self _ _

theorem getDomain_slashes (nl tail2 : Str)
    (hnl : ∀ c ∈ nl, isNetlocEnd c = false)
    (hhash : '#' ∉ ['/', '/'] ++ nl ++ tail2)
    (htail : tail2 = [] ∨ tail2.head? = some '/' ∨ tail2.head? = some '?') :
    getDomain (['/', '/'] ++ nl ++ tail2) = nl := by
  have h1 : (fragSplit (['/', '/'] ++ nl ++ tail2)).1 = ['/', '/'] ++ nl ++ tail2 := by
    rw [fragSplit_of_not_mem hhash]
  have h2 : (splitScheme (['/', '/'] ++ nl ++ tail2)).2 = ['/', '/'] ++ nl ++ tail2 := by
    rw [@splitScheme_head_slash (['/', '/'] ++ nl ++ tail2) rfl]
  have h3 : (splitNetloc (['/', '/'] ++ nl ++ tail2)).1 = nl := by
    rw [splitNetloc_reconstruct hnl htail]
  rw [getDomain_eq, h1, h2, h3]

theorem getDomain_scheme_slashes (sch nl tail2 : Str)
    (hv : validScheme sch = true)
    (hnl : ∀ c ∈ nl, isNetlocEnd c = false)
    (hhash : '#' ∉ sch ++ ':' :: (['/', '/'] ++ nl ++ tail2))
    (htail : tail2 = [] ∨ tail2.head? = some '/' ∨ tail2.head? = some '?') :
    getDomain (sch ++ ':' :: (['/', '/'] ++ nl ++ tail2)) = nl := by
  have h1 : (fragSplit (sch ++ ':' :: (['/', '/'] ++ nl ++ tail2))).1
      = sch ++ ':' :: (['/', '/'] ++ nl ++ tail2) := by
    rw [fragSplit_of_not_mem hhash]
  have h2 : (splitScheme (sch ++ ':' :: (['/', '/'] ++ nl ++ tail2))).2
      = ['/', '/'] ++ nl ++ tail2 := by
    rw [splitScheme_reconstruct hv]
  have h3 : (splitNetloc (['/', '/'] ++ nl ++ tail2)).1 = nl := by
    rw [splitNetloc_reconstruct hnl htail]
  rw [getDomain_eq, h1, h2, h3]

theorem getDomain_no_slashes (x opt : Str)
    (hhash : '#' ∉ x ++ opt)
    (hscheme : splitScheme (x ++ opt) = ([], x ++ opt))
    (hx : x ≠ []) (htk : ¬ x.take 2 = ['/', '/'])
    (hopt : opt = [] ∨ opt.head? = some '?') :
    getDomain (x ++ opt) = [] := by
  have h1 : (fragSplit (x ++ opt)).1 = x ++ opt := by
    rw [fragSplit_of_not_mem hhash]
  have h2 : (splitScheme (x ++ opt)).2 = x ++ opt := by
    rw [hscheme]
  have h3 : (splitNetloc (x ++ opt)).1 = [] := by
    unfold splitNetloc
    rw [if_neg (take_two_ne_slashes hx htk opt hopt)]
  rw [getDomain_eq, h1, h2, h3]

theorem getDomain_scheme_no_slashes (sch x opt : Str)
    (hv : validScheme sch = true)
    (hhash : '#' ∉ sch ++ ':' :: (x ++ opt))
    (hx : x ≠ []) (htk : ¬ x.take 2 = ['/', '/'])
    (hopt : opt = [] ∨ opt.head? = some '?') :
    getDomain (sch ++ ':' :: (x ++ opt)) = [] := by
  have h1 : (fragSplit (sch ++ ':' :: (x ++ opt))).1 = sch ++ ':' :: (x ++ opt) := by
    rw [fragSplit_of_not_mem hhash]
  have h2 : (splitScheme (sch ++ ':' :: (x ++ opt))).2 = x ++ opt := by
    rw [splitScheme_reconstruct hv]
  have h3 : (splitNetloc (x ++ opt)).1 = [] := by
    unfold splitNetloc
    rw [if_neg (take_two_ne_slashes hx htk opt hopt)]
  rw [getDomain_eq, h1, h2, h3]

/-- Reparsing the URL that `_normalize_url` rebuilds recovers the netloc
of the original parse.  Stated over the fragment-free remainder `r0` of
the input URL. -/
theorem getDomain_unparse_aux (r0 : Str) (hash0 : '#' ∉ r0) :
    getDomain (urlunparse (splitScheme r0).1
      (splitNetloc (splitScheme r0).2).1
      (if rstripSlash (splitQuery (splitNetloc (splitScheme r0).2).2).1 = []
       then ['/']
       else rstripSlash (splitQuery (splitNetloc (splitScheme r0).2).2).1)
      (splitQuery (splitNetloc (splitScheme r0).2).2).2 [])
      = (splitNetloc (splitScheme r0).2).1 := by
  obtain ⟨sch, hsch⟩ : ∃ x, (splitScheme r0).1 = x := ⟨_, rfl⟩
  obtain ⟨r1, hr1⟩ : ∃ x, (splitScheme r0).2 = x := ⟨_, rfl⟩
  rw [hsch, hr1]
  obtain ⟨nl, hnl⟩ : ∃ x, (splitNetloc r1).1 = x := ⟨_, rfl⟩
  obtain ⟨r2, hr2⟩ : ∃ x, (splitNetloc r1).2 = x := ⟨_, rfl⟩
  rw [hnl, hr2]
  obtain ⟨pa, hpa⟩ : ∃ x, (splitQuery r2).1 = x := ⟨_, rfl⟩
  obtain ⟨q, hq⟩ : ∃ x, (splitQuery r2).2 = x := ⟨_, rfl⟩
  rw [hpa, hq]
  obtain ⟨pa2, hpa2⟩ : ∃ x,
      (if rstripSlash pa = [] then ['/'] else rstripSlash pa) = x := ⟨_, rfl⟩
  rw [hpa2, urlunparse_no_frag]
  obtain ⟨opt, hopt0⟩ : ∃ x, (if q = [] then [] else '?' :: q) = x := ⟨_, rfl⟩
  rw [hopt0]
  have hr1sub : ∀ c ∈ r1, c ∈ r0 := by
    rw [← hr1]
    exact splitScheme_snd_subset
  have hr2sub : ∀ c ∈ r2, c ∈ r0 := by
    rw [← hr2]
    intro c hc
    exact hr1sub c (splitNetloc_snd_subset c hc)
  have hpasub : ∀ c ∈ pa, c ∈ r0 := by
    rw [← hpa]
    intro c hc
    exact hr2sub c (splitQuery_fst_subset c hc)
  have hqsub : ∀ c ∈ q, c ∈ r0 := by
    rw [← hq]
    intro c hc
    exact hr2sub c (splitQuery_snd_subset c hc)
  have hnlend : ∀ c ∈ nl, isNetlocEnd c = false := by
    rw [← hnl]
    exact splitNetloc_fst_no_end
  have hschhash : '#' ∉ sch := by
    rw [← hsch]
    exact splitScheme_fst_not_mem (by decide)
  have hnlhash : '#' ∉ nl := fun hc => absurd (hnlend _ hc) (by decide)
  have hpahash : '#' ∉ pa := fun hc => hash0 (hpasub _ hc)
  have hqhash : '#' ∉ q := fun hc => hash0 (hqsub _ hc)
  have hpa2ne : pa2 ≠ [] := by
    rw [← hpa2]
    by_cases h : rstripSlash pa = []
    · rw [if_pos h]
      simp
    · rw [if_neg h]
      exact h
  have hpa2cases : pa2 = ['/'] ∨ pa2 <+: pa := by
    rw [← hpa2]
    by_cases h : rstripSlash pa = []
    · rw [if_pos h]
      exact Or.inl rfl
    · rw [if_neg h]
      exact Or.inr (rstripSlash_isPre pa)
  have hpa2hash : '#' ∉ pa2 := by
    rcases hpa2cases with h | h
    · rw [h]
      decide
    · exact fun hc => hpahash (h.sublist.mem hc)
  have hopt1 : opt = [] ∨ opt.head? = some '?' := by
    rw [← hopt0]
    by_cases h : q = []
    · rw [if_pos h]
      exact Or.inl rfl
    · rw [if_neg h]
      exact Or.inr rfl
  have hopt2 : opt = [] ∨ ∃ t, opt = '?' :: t := by
    rw [← hopt0]
    by_cases h : q = []
    · rw [if_pos h]
      exact Or.inl rfl
    · rw [if_neg h]
      exact Or.inr ⟨q, rfl⟩
  have hopthash : '#' ∉ opt := by
    rw [← hopt0]
    by_cases h : q = []
    · rw [if_pos h]
      simp
    · rw [if_neg h]
      intro hc
      rcases List.mem_cons.1 hc with h1 | h1
      · exact absurd h1 (by decide)
      · exact hqhash h1
  have hschemes : (sch = [] ∧ r1 = r0
      ∧ ∀ a b, splitFirst ':' r0 = some (a, b) → validScheme a = false)
      ∨ validScheme sch = true := by
    rcases splitScheme_cases r0 with ⟨he, hinv⟩ | ⟨pre, post, hsp, hv, he⟩
    · exact Or.inl ⟨by rw [← hsch, he], by rw [← hr1, he], hinv⟩
    · exact Or.inr (by rw [← hsch, he]; exact validScheme_pyLower hv)
  by_cases hb : nl ≠ [] ∨ pa2.take 2 = ['/', '/']
  · rw [urlunparseCore_pos hb]
    obtain ⟨p, hpdef⟩ : ∃ x,
        (if pa2 ≠ [] ∧ pa2.head? ≠ some '/' then '/' :: pa2 else pa2) = x :=
      ⟨_, rfl⟩
    rw [hpdef]
    have hphead : p.head? = some '/' := by
      rw [← hpdef]
      by_cases hh : pa2.head? = some '/'
      · rw [if_neg (fun hcon => hcon.2 hh)]
        exact hh
      · rw [if_pos ⟨hpa2ne, hh⟩]
        rfl
    have hpne : p ≠ [] := by
      intro h0
      rw [h0] at hphead
      cases hphead
    have hphash : '#' ∉ p := by
      rw [← hpdef]
      by_cases hh : pa2 ≠ [] ∧ pa2.head? ≠ some '/'
      · rw [if_pos hh]
        intro hc
        rcases List.mem_cons.1 hc with h1 | h1
        · exact absurd h1 (by decide)
        · exact hpa2hash h1
      · rw [if_neg hh]
        exact hpa2hash
    have htail : p ++ opt = [] ∨ (p ++ opt).head? = some '/'
        ∨ (p ++ opt).head? = some '?' := by
      right
      left
      rw [head?_append_left hpne]
      exact hphead
    have hXhash : '#' ∉ ['/', '/'] ++ nl ++ (p ++ opt) := by
      intro hc
      rcases List.mem_append.1 hc with h | h
      · rcases List.mem_append.1 h with h1 | h1
        · exact (by decide : ('#' : Char) ∉ (['/', '/'] : Str)) h1
        · exact hnlhash h1
      · rcases List.mem_append.1 h with h1 | h1
        · exact hphash h1
        · exact hopthash h1
    rcases hschemes with ⟨hsch0, hr10, hinv⟩ | hvs
    · rw [if_neg (fun hcon => hcon hsch0)]
      have hassoc : (['/', '/'] ++ nl ++ p) ++ opt
          = ['/', '/'] ++ nl ++ (p ++ opt) := by simp
      rw [hassoc]
      exact getDomain_slashes nl (p ++ opt) hnlend hXhash htail
    · have hschne : sch ≠ [] := fun h0 => absurd (h0 ▸ hvs) (by decide)
      rw [if_pos hschne]
      have hYhash : '#' ∉ sch ++ ':' :: (['/', '/'] ++ nl ++ (p ++ opt)) := by
        intro hc
        rcases List.mem_append.1 hc with h | h
        · exact hschhash h
        · rcases List.mem_cons.1 h with h1 | h1
          · exact absurd h1 (by decide)
          · exact hXhash h1
      have hassoc : (sch ++ ':' :: (['/', '/'] ++ nl ++ p)) ++ opt
          = sch ++ ':' :: (['/', '/'] ++ nl ++ (p ++ opt)) := by simp
      rw [hassoc]
      exact getDomain_scheme_slashes sch nl (p ++ opt) hvs hnlend hYhash htail
  · rw [urlunparseCore_neg hb]
    have hnl0 : nl = [] := by
      by_contra h0
      exact hb (Or.inl h0)
    have htk : ¬ pa2.take 2 = ['/', '/'] := fun h0 => hb (Or.inr h0)
    have hPhash : '#' ∉ pa2 ++ opt := by
      intro hc
      rcases List.mem_append.1 hc with h | h
      · exact hpa2hash h
      · exact hopthash h
    rcases hschemes with ⟨hsch0, hr10, hinv⟩ | hvs
    · rw [if_neg (fun hcon => hcon hsch0), hnl0]
      have hkey : pa2.head? = some '/' ∨ pa2 <+: r0 := by
        rcases splitNetloc_cases r1 with ⟨htk1, hne⟩ | ⟨htk1, hne⟩
        · have hr2r0 : r2 = r0 := by
            rw [← hr2, hne, hr10]
          rcases hpa2cases with h | h
          · exact Or.inl (by rw [h]; rfl)
          · right
            have h1 := splitQuery_fst_isPre r2
            rw [hpa, hr2r0] at h1
            exact h.trans h1
        · left
          have hr2eq : (r1.drop 2).dropWhile (fun c => !isNetlocEnd c) = r2 := by
            rw [← hr2, hne]
          cases r2 with
          | nil =>
            have hpanil : pa = [] := by
              rw [← hpa]
              rfl
            have hrs : rstripSlash pa = [] := by
              rw [hpanil]
              rfl
            rw [← hpa2, if_pos hrs]
            rfl
          | cons c cs =>
            have hh : ((r1.drop 2).dropWhile (fun x => !isNetlocEnd x)).head?
                = some c := by
              rw [hr2eq]
              rfl
            have hce : isNetlocEnd c = true := by
              have h0 := head?_dropWhile_false hh
              cases hcv : isNetlocEnd c with
              | true => rfl
              | false =>
                simp only [hcv] at h0
                exact absurd h0 (by decide)
            have hcr0 : c ∈ r0 := hr2sub c (List.mem_cons_self c cs)
            have hcnh : c ≠ '#' := fun h0 => hash0 (h0 ▸ hcr0)
            have hcs : c = '/' ∨ c = '?' := by
              have h0 := hce
              simp only [isNetlocEnd, Bool.or_eq_true, decide_eq_true_eq] at h0
              rcases h0 with (h0 | h0) | h0
              · exact Or.inl h0
              · exact Or.inr h0
              · exact absurd h0 hcnh
            have hpapre : pa <+: c :: cs := by
              rw [← hpa]
              exact splitQuery_fst_isPre _
            rcases hcs with rfl | rfl
            · by_cases hpan : pa = []
              · have hrs : rstripSlash pa = [] := by
                  rw [hpan]
                  rfl
                rw [← hpa2, if_pos hrs]
                rfl
              · have hph : pa.head? = some '/' := by
                  rw [← isPre_head? hpapre hpan]
                  rfl
                rcases hpa2cases with h | h
                · rw [h]
                  rfl
                · rw [← isPre_head? h hpa2ne]
                  exact hph
            · have hpan : pa = [] := by
                by_contra hpan
                have hph : pa.head? = some '?' := by
                  rw [← isPre_head? hpapre hpan]
                  rfl
                have hqin : ('?' : Char) ∈ pa := mem_of_head?_eq hph
                rcases splitQuery_cases ('?' :: cs) with ⟨hq1, hq2⟩ | ⟨hq1, hq2⟩
                · exact hq2 (List.mem_cons_self _ _)
                · rw [hpa] at hq2
                  exact hq2 hqin
              have hrs : rstripSlash pa = [] := by
                rw [hpan]
                rfl
              rw [← hpa2, if_pos hrs]
              rfl
      have hss : splitScheme (pa2 ++ opt) = ([], pa2 ++ opt) := by
        rcases hkey with hph | hpre
        · exact splitScheme_head_slash
            (by rw [head?_append_left hpa2ne]; exact hph)
        · exact splitScheme_suffix_invalid hpre hinv hopt2
      exact getDomain_no_slashes pa2 opt hPhash hss hpa2ne htk hopt1
    · have hschne : sch ≠ [] := fun h0 => absurd (h0 ▸ hvs) (by decide)
      rw [if_pos hschne, hnl0]
      have hYhash : '#' ∉ sch ++ ':' :: (pa2 ++ opt) := by
        intro hc
        rcases List.mem_append.1 hc with h | h
        · exact hschhash h
        · rcases List.mem_cons.1 h with h1 | h1
          · exact absurd h1 (by decide)
          · exact hPhash h1
      have hassoc : (sch ++ ':' :: pa2) ++ opt = sch ++ ':' :: (pa2 ++ opt) := by
        simp
      rw [hassoc]
      exact getDomain_scheme_no_slashes sch pa2 opt hvs hYhash hpa2ne htk hopt1

/-- `_get_domain` is invariant under `_normalize_url`: dropping the
fragment and collapsing trailing path slashes never changes the netloc
that `urlparse` recovers. -/
theorem getDomain_normalizeUrl (u : Str) :
    getDomain (normalizeUrl u) = getDomain u :=
  getDomain_unparse_aux (fragSplit u).1 (fragSplit_fst_not_mem u)

theorem shouldCrawl_domain {env : WebEnv} {cfg : CrawlCfg} {url b : Str}
    (h : shouldCrawlUrl env cfg url b = true) : getDomain url = b := by
  simp only [shouldCrawlUrl, Bool.and_eq_true, decide_eq_true_eq] at h
  exact h.1.1.1.2

set_option maxHeartbeats 1600000 in
/--
Claim C5.  For every crawl with a non-empty seed list: (1) every fetched
page's URL has the same domain as the first seed URL; (2) every seed
whose domain differs from the first seed's is logged with the
"has different domain, skipping" warning; and (3) no fetched page carries
such a seed's URL (normalized or as given) — different-domain seeds are
never fetched or followed.  `crawl` returns this value unconditionally,
so stray seeds never abort the run.
-/
theorem claim_c5 : ∀ (env : WebEnv) (cfg : CrawlCfg) (fuel : Nat)
    (s0 : Str) (srest : List Str),
    (∀ pd ∈ (crawl env cfg fuel (s0 :: srest)).pages,
        getDomain pd.1.url = getDomain s0)
    ∧ (∀ u ∈ s0 :: srest, ¬ getDomain u = getDomain s0 →
        ("Seed URL ".toList ++ normalizeUrl u
            ++ " has different domain, skipping".toList)
          ∈ (crawl env cfg fuel (s0 :: srest)).warnings)
    ∧ (∀ u, ¬ getDomain u = getDomain s0 →
        ∀ pd ∈ (crawl env cfg fuel (s0 :: srest)).pages,
          pd.1.url ≠ normalizeUrl u ∧ pd.1.url ≠ u) := by
  intro env cfg fuel s0 srest
  have hcrawl : (crawl env cfg fuel (s0 :: srest)).pages
      = crawlLoop env cfg (getDomain (normalizeUrl s0)) fuel
          ((normalizeUrl s0 :: srest.map normalizeUrl).map (fun u => (u, 0)))
          [] [] := rfl
  have hwarn : (crawl env cfg fuel (s0 :: srest)).warnings
      = ((normalizeUrl s0 :: srest.map normalizeUrl).filter
          (fun u => ¬ (getDomain u = getDomain (normalizeUrl s0)))).map (fun u =>
          "Seed URL ".toList ++ u
            ++ " has different domain, skipping".toList) := rfl
  have hstep : ∀ (url : Str) (depth : Nat) rest visited pages pd,
      (∀ x ∈ pages, getDomain (Prod.fst x).url = getDomain (normalizeUrl s0)) →
      pd ∈ (crawlStep env cfg (getDomain (normalizeUrl s0))
          url depth rest visited pages).2.2 →
      getDomain (Prod.fst pd).url = getDomain (normalizeUrl s0) := by
    intro url depth rest visited pages pd hinv hpd
    rcases crawlStep_pages_cases env cfg (getDomain (normalizeUrl s0)) url depth
      rest visited pages pd hpd with hold | ⟨hurl, _, _, hshould⟩
    · exact hinv pd hold
    · rw [hurl]
      exact shouldCrawl_domain hshould
  have hmain : ∀ pd ∈ (crawl env cfg fuel (s0 :: srest)).pages,
      getDomain pd.1.url = getDomain s0 := by
    intro pd hpd
    rw [hcrawl] at hpd
    have hdom := crawlLoop_invariant env cfg (getDomain (normalizeUrl s0)) hstep
      fuel _ [] [] (by simp) pd hpd
    exact hdom.trans (getDomain_normalizeUrl s0)
  refine ⟨hmain, ?_, ?_⟩
  · intro u hu hne
    rw [hwarn]
    refine List.mem_map.2 ⟨normalizeUrl u, ?_, rfl⟩
    rw [List.mem_filter]
    refine ⟨?_, ?_⟩
    · rcases List.mem_cons.1 hu with rfl | hmem
      · exact absurd rfl hne
      · exact List.mem_cons.2 (Or.inr (List.mem_map_of_mem _ hmem))
    · exact decide_eq_true (by
        rw [getDomain_normalizeUrl, getDomain_normalizeUrl]
        exact hne)
  · intro u hne pd hpd
    have hd := hmain pd hpd
    refine ⟨?_, ?_⟩
    · intro he
      rw [he, getDomain_normalizeUrl] at hd
      exact hne hd
    · intro he
      rw [he] at hd
      exact hne hd

/-- Witness for C5: a crawl seeded with `https://a.com/` and the
different-domain `https://b.com/x` fetches (only) the `a.com` page,
whose domain equals the first seed's; the `b.com` seed's warning is
logged; and the fetched page is not the `b.com` seed. -/
theorem claim_c5_witness :
    getDomain ((⟨"https://a.com/".toList, "<html>".toList, 200,
          "text/html".toList⟩ : FetchedPage), (0 : Nat)).1.url
      = getDomain "https://a.com/".toList
    ∧ ("Seed URL ".toList ++ normalizeUrl "https://b.com/x".toList
          ++ " has different domain, skipping".toList)
        ∈ (crawl demoEnv demoCfg 5
            ["https://a.com/".toList, "https://b.com/x".toList]).warnings
    ∧ (((⟨"https://a.com/".toList, "<html>".toList, 200,
          "text/html".toList⟩ : FetchedPage), (0 : Nat)).1.url
          ≠ normalizeUrl "https://b.com/x".toList
        ∧ ((⟨"https://a.com/".toList, "<html>".toList, 200,
          "text/html".toList⟩ : FetchedPage), (0 : Nat)).1.url
          ≠ "https://b.com/x".toList) := by
  refine ⟨?_, ?_, ?_⟩
  · exact (claim_c5 demoEnv demoCfg 5 "https://a.com/".toList
      ["https://b.com/x".toList]).1
      ((⟨"https://a.com/".toList, "<html>".toList, 200,
        "text/html".toList⟩ : FetchedPage), (0 : Nat)) (by decide)
  · exact (claim_c5 demoEnv demoCfg 5 "https://a.com/".toList
      ["https://b.com/x".toList]).2.1 "https://b.com/x".toList
      (by decide) (by decide)
  · exact (claim_c5 demoEnv demoCfg 5 "https://a.com/".toList
      ["https://b.com/x".toList]).2.2 "https://b.com/x".toList (by decide)
      ((⟨"https://a.com/".toList, "<html>".toList, 200,
        "text/html".toList⟩ : FetchedPage), (0 : Nat)) (by decide)

end Pulse
